import Mathlib

/-!
# Dependency resolution of `deps-lua`

A shallow embedding of the dependency-graph engine of `main.cpp`
(`describeDepenedencyErrors`, `buildDepBatches`, `dfs`, `buildReverseMap`)
together with the properties its specification states about it.

`std::unordered_map<std::string, std::unordered_set<std::string>>` is modelled
as an association list whose order is the (unspecified) iteration order of the
container.  `erase` on an unordered container keeps the relative order of the
elements that stay, so it is a `filter` on the list.  Every theorem
quantifies over the list, hence over every iteration order.

The containers that `buildReverseMap` fills are built in insertion order; the
theorems on the reduction are stated for every pair of containers with the same
content (`BuiltFrom`), hence for every iteration order as well.  The recursion of
`dfs` is not bounded in the source: here it is bounded by a fuel and returns
`none` when the bound is hit.
-/

namespace DepsLua

/-- The `dep_map_t` of the source: entity name to the set of names it depends on,
listed in container iteration order. -/
abbrev DepMap := List (String × List String)

/-- Keys of a map, in iteration order. -/
def keys (m : DepMap) : List String := m.map Prod.fst

/-- The key uniqueness that `std::unordered_map` enforces. -/
def UniqueKeys (m : DepMap) : Prop := (keys m).Nodup

instance (m : DepMap) : Decidable (UniqueKeys m) := by
  unfold UniqueKeys
  infer_instance

/-- Membership test `dep_map.find(k) != dep_map.end()`. -/
def hasKey (m : DepMap) (k : String) : Bool := m.any (fun kv => kv.1 == k)

/-- The call `std::unordered_set::erase(d)`: the element equal to `d` goes, the rest
keep their order. -/
def setErase (s : List String) (d : String) : List String := s.filter (fun x => x != d)

/-- The call `std::unordered_map::erase(k)`: the entry of key `k` goes, the rest keep
their order. -/
def mapErase (m : DepMap) (k : String) : DepMap := m.filter (fun kv => kv.1 != k)

/-- What `describeDepenedencyErrors` prints for one entity: the entity and the
contents of the two vectors `unresolved` and `circular` after its inner loop. -/
structure DepError where
  entity : String
  unresolved : List String
  circular : List String
deriving DecidableEq

/-- Inner loop of `describeDepenedencyErrors` (lines 142-152): each dependency is
appended to `unresolved` when it is not a key of the map, to `circular` otherwise. -/
def classifyDeps (m : DepMap) (deps : List String) : List String × List String :=
  deps.foldl
    (fun acc dep => if hasKey m dep then (acc.1, acc.2 ++ [dep]) else (acc.1 ++ [dep], acc.2))
    ([], [])

/-- The function `describeDepenedencyErrors`: one report per entry of the map, in
iteration order. -/
def describeDepenedencyErrors (m : DepMap) : List DepError :=
  m.map (fun kvp => ⟨kvp.1, (classifyDeps m kvp.2).1, (classifyDeps m kvp.2).2⟩)

/-- First loop of a round (lines 181-188): the keys whose dependency set is empty. -/
def readyKeys (m : DepMap) : List String :=
  m.foldl (fun ready kvp => if kvp.2.isEmpty then ready ++ [kvp.1] else ready) []

/-- Second loop of a round (lines 196-199): erase every ready key from the map. -/
def eraseReady (m : DepMap) (ready : List String) : DepMap :=
  ready.foldl mapErase m

/-- Third loop of a round (lines 201-207): erase every ready name from every
remaining dependency set. -/
def eraseReadyDeps (m : DepMap) (ready : List String) : DepMap :=
  m.map (fun kvp => (kvp.1, ready.foldl setErase kvp.2))

/-- Observable outcome of `buildDepBatches`: the returned batches, the map as the
function leaves it, and the report of `describeDepenedencyErrors` when the
function called it (`none` when it did not). -/
structure BatchResult where
  batches : List (List String)
  dep_map : DepMap
  errors : Option (List DepError)
deriving DecidableEq

/-- The `while` loop of `buildDepBatches`; `fuel` bounds the number of loop tests,
`none` means the bound was hit before the loop ended. -/
def buildLoop : Nat → DepMap → List (List String) → Option BatchResult
  | 0, _, _ => none
  | fuel + 1, dep_map, batches =>
    if dep_map.isEmpty then some ⟨batches, dep_map, none⟩
    else
      let ready := readyKeys dep_map
      if ready.isEmpty then
        some ⟨batches, dep_map, some (describeDepenedencyErrors dep_map)⟩
      else
        buildLoop fuel (eraseReadyDeps (eraseReady dep_map ready) ready) (batches ++ [ready])

/-- The function `buildDepBatches`. Every round but the last removes a key, so
`length + 1` loop tests are enough (`buildLoop_rounds`). -/
def buildDepBatches (dep_map : DepMap) : Option BatchResult :=
  buildLoop (dep_map.length + 1) dep_map []

/-- The diamond: `B` and `C` depend on `A`, `D` on both. -/
def diamond : DepMap := [("A", []), ("B", ["A"]), ("C", ["A"]), ("D", ["B", "C"])]

/-- A map with a free entity, a cycle, a self-dependency and a missing dependency. -/
def cycleMissing : DepMap :=
  [("A", ["B"]), ("B", ["A"]), ("C", []), ("D", ["C", "X"]), ("E", ["E"]), ("F", ["C"])]

/-- The local `graph` of `buildReverseMap`: node name to the set of its successors,
the names that depend on it. -/
abbrev Graph := List (String × List String)

/-- The value that `graph[node]` reads. On a node that is not a key the source
inserts an empty set and reads that, which adds no edge; in `buildReverseMap` every
node that is looked up is a key already (`buildGraph_closed`). -/
def succs (graph : Graph) (node : String) : List String := (graph.lookup node).getD []

/-- The call `std::unordered_set::emplace(x)`: `x` is added unless it is there. -/
def setInsert (s : List String) (x : String) : List String :=
  if s.contains x then s else s ++ [x]

/-- The statement `graph[k];`: an entry with an empty set is added unless `k` is a
key. -/
def touch (graph : Graph) (k : String) : Graph :=
  if hasKey graph k then graph else graph ++ [(k, [])]

/-- The statement `graph[parent].emplace(child)`. -/
def addSucc (graph : Graph) (parent child : String) : Graph :=
  (touch graph parent).map
    (fun kv => if kv.1 == parent then (kv.1, setInsert kv.2 child) else kv)

/-- Inner loop of the first loop of `buildReverseMap` (lines 248-252), for the entity
`k`: every parent becomes a node and gets `k` as a successor. -/
def buildEdges (k : String) (acc : List String × Graph) (parents : List String) :
    List String × Graph :=
  parents.foldl (fun acc parent => (setInsert acc.1 parent, addSucc acc.2 parent k)) acc

/-- Body of the first loop of `buildReverseMap` (lines 246-252) for one entry of the
map. -/
def buildEntry (acc : List String × Graph) (kvp : String × List String) :
    List String × Graph :=
  buildEdges kvp.1 (setInsert acc.1 kvp.1, touch acc.2 kvp.1) kvp.2

/-- First loop of `buildReverseMap` (lines 244-253): the set `_nodes` and the reverse
graph, an edge from each dependency to the entity that lists it. -/
def buildGraph (dep_map : DepMap) : List String × Graph :=
  dep_map.foldl buildEntry ([], [])

/-- The function `dfs` (lines 226-238): every child followed by what `dfs` returns
on it. `fuel` bounds the depth of the recursion, `none` means the bound was hit. -/
def dfs : Nat → Graph → String → Option (List String)
  | 0, _, _ => none
  | fuel + 1, graph, node =>
    (succs graph node).foldlM
      (fun ret child => (dfs fuel graph child).map (fun desc => ret ++ child :: desc)) []

/-- The call `graph[n0].erase(n3)`. -/
def eraseSucc (graph : Graph) (n0 n3 : String) : Graph :=
  graph.map (fun kv => if kv.1 == n0 then (kv.1, setErase kv.2 n3) else kv)

/-- Loop over `n3` (lines 270-276): each name of `descs` found in `graph[n0]` is erased
from it. -/
def eraseFound (graph : Graph) (n0 : String) (descs : List String) : Graph :=
  descs.foldl
    (fun g n3 => if (succs g n0).contains n3 then eraseSucc g n0 n3 else g) graph

/-- Loop over `n1` (lines 268-277), which iterates `graph[n0]` while names are erased
from it: `todo` is what was left to iterate when the loop was last at a name; a
name of it that has been erased meanwhile is not visited, the others are visited
in order. -/
def reduceNode (fuel : Nat) (n0 : String) : Graph → List String → Option Graph
  | graph, [] => some graph
  | graph, n1 :: todo =>
    if (succs graph n0).contains n1 then
      match dfs fuel graph n1 with
      | none => none
      | some descs => reduceNode fuel n0 (eraseFound graph n0 descs) todo
    else reduceNode fuel n0 graph todo

/-- Loop over `n0` (lines 265-278), the reduction. -/
def reduceLoop (fuel : Nat) (nodes : List String) (graph : Graph) : Option Graph :=
  nodes.foldlM (fun g n0 => reduceNode fuel n0 g (succs g n0)) graph

/-- The function `buildReverseMap`: the graph it prints after the reduction. `fuel`
bounds the depth of every `dfs` call. -/
def buildReverseMap (fuel : Nat) (dep_map : DepMap) : Option Graph :=
  reduceLoop fuel (buildGraph dep_map).1 (buildGraph dep_map).2

/-- The map where `B` depends on `A` and `C` on both `A` and `B`. -/
def chainPlus : DepMap := [("A", []), ("B", ["A"]), ("C", ["A", "B"])]

/-- The chain where `B` depends on `A` and `C` on `B`. -/
def chain : DepMap := [("A", []), ("B", ["A"]), ("C", ["B"])]

/-- Closed form of one round on the map: the entries whose key is in `S` go, and
the names of `S` go from every remaining dependency set. -/
def restrict (m : DepMap) (S : List String) : DepMap :=
  (m.filter (fun kv => decide (kv.1 ∉ S))).map
    (fun kv => (kv.1, kv.2.filter (fun d => decide (d ∉ S))))

/-- The successive rounds of the loop: `Rounds m rs f` says that, started on `m`,
the loop appends the batches `rs` and ends on the map `f`. -/
inductive Rounds : DepMap → List (List String) → DepMap → Prop
  | done (m : DepMap) : readyKeys m = [] → Rounds m [] m
  | step (m : DepMap) (rs : List (List String)) (f : DepMap) :
      readyKeys m ≠ [] → Rounds (restrict m (readyKeys m)) rs f →
      Rounds m (readyKeys m :: rs) f

/-- What the loop leaves in `errors` when it ends on the map `f`: nothing when `f` is
empty, the report of `describeDepenedencyErrors` on `f` at a stall. -/
def finalErrors (f : DepMap) : Option (List DepError) :=
  if f.isEmpty then none else some (describeDepenedencyErrors f)

/-- A successor edge of the graph: `b` is in `graph[a]`. -/
def GEdge (g : Graph) (a b : String) : Prop := b ∈ succs g a

instance (g : Graph) (a b : String) : Decidable (GEdge g a b) := by
  unfold GEdge
  infer_instance

/-- The body of the loop of `dfs`, over what the recursive call returns. -/
def dfsStep (f : String → Option (List String)) (ret : List String) (child : String) :
    Option (List String) :=
  (f child).map (fun desc => ret ++ child :: desc)

/-- Every successor set of `g` is within the one of `g0`. -/
def SubGraph (g g0 : Graph) : Prop := ∀ a, succs g a ⊆ succs g0 a

/-- No node of the graph is reachable from itself by one or more successor edges. -/
def GAcyclic (g : Graph) : Prop := ∀ n, ¬ Relation.TransGen (GEdge g) n n

/-- Node `n0` has no redundant edge: no successor of `n0` is reachable from another
successor of `n0` by one or more edges. -/
def NoRedundant (g : Graph) (n0 : String) : Prop :=
  ∀ n1 ∈ succs g n0, ∀ n3 ∈ succs g n0, ¬ Relation.TransGen (GEdge g) n1 n3

/-- Every edge of `g` is still implied by a path of `g'`. -/
def KeepsReach (g' g : Graph) : Prop := ∀ a b, GEdge g a b → Relation.TransGen (GEdge g') a b

/-- The containers `nodes` and `graph` hold what the first loop of `buildReverseMap`
builds from `dep_map`, in whatever order they iterate. -/
def BuiltFrom (dep_map : DepMap) (nodes : List String) (graph : Graph) : Prop :=
  nodes.Perm (buildGraph dep_map).1 ∧
  ∀ n, (succs graph n).Perm (succs (buildGraph dep_map).2 n)

/-- A dependency edge of the map: `a` is a key and lists `b`. -/
def DepEdge (m : DepMap) (a b : String) : Prop := ∃ ds, (a, ds) ∈ m ∧ b ∈ ds

/-- A name lies on a dependency cycle when a path of one or more edges leads from it
back to itself. -/
def OnCycle (m : DepMap) (n : String) : Prop := Relation.TransGen (DepEdge m) n n

/-- Names reachable from `a` along zero or more dependency edges. -/
def Reach (m : DepMap) (a b : String) : Prop := Relation.ReflTransGen (DepEdge m) a b

/-! ## Basic facts about the container operations -/

theorem mem_keys {m : DepMap} {k : String} : k ∈ keys m ↔ ∃ ds, (k, ds) ∈ m := by
  simp [keys]

theorem hasKey_iff (m : DepMap) (k : String) : hasKey m k = true ↔ k ∈ keys m := by
  simp [hasKey, keys]

theorem readyKeys_eq (m : DepMap) :
    readyKeys m = (m.filter (fun kv => kv.2.isEmpty)).map Prod.fst := by
  have h : ∀ (l : DepMap) (acc : List String),
      l.foldl (fun ready kvp => if kvp.2.isEmpty then ready ++ [kvp.1] else ready) acc
        = acc ++ (l.filter (fun kv => kv.2.isEmpty)).map Prod.fst := by
    intro l
    induction l with
    | nil => intro acc; simp
    | cons kv l ih =>
      intro acc
      rw [List.foldl_cons, ih, List.filter_cons]
      by_cases hk : kv.2.isEmpty = true
      · simp [hk]
      · simp [hk]
  simpa [readyKeys] using h m []

theorem mem_readyKeys {m : DepMap} {k : String} : k ∈ readyKeys m ↔ (k, []) ∈ m := by
  rw [readyKeys_eq]
  constructor
  · intro h
    obtain ⟨kv, hkv, rfl⟩ := List.mem_map.1 h
    obtain ⟨hm, he⟩ := List.mem_filter.1 hkv
    obtain ⟨a, ds⟩ := kv
    cases ds with
    | nil => exact hm
    | cons d ds => simp at he
  · intro h
    exact List.mem_map.2 ⟨(k, []), List.mem_filter.2 ⟨h, rfl⟩, rfl⟩

theorem eraseReady_eq (m : DepMap) (ready : List String) :
    eraseReady m ready = m.filter (fun kv => decide (kv.1 ∉ ready)) := by
  unfold eraseReady
  induction ready generalizing m with
  | nil => simp
  | cons k ks ih =>
    rw [List.foldl_cons, ih, mapErase, List.filter_filter]
    apply List.filter_congr
    intro kv _
    by_cases h1 : kv.1 = k <;> by_cases h2 : kv.1 ∈ ks <;> simp [h1, h2]

theorem foldl_setErase (s ready : List String) :
    ready.foldl setErase s = s.filter (fun d => decide (d ∉ ready)) := by
  induction ready generalizing s with
  | nil => simp
  | cons k ks ih =>
    rw [List.foldl_cons, ih, setErase, List.filter_filter]
    apply List.filter_congr
    intro d _
    by_cases h1 : d = k <;> by_cases h2 : d ∈ ks <;> simp [h1, h2]

theorem round_eq_restrict (m : DepMap) (ready : List String) :
    eraseReadyDeps (eraseReady m ready) ready = restrict m ready := by
  simp [eraseReadyDeps, eraseReady_eq, restrict, foldl_setErase]

theorem restrict_nil (m : DepMap) : restrict m [] = m := by
  simp [restrict]

theorem restrict_restrict (m : DepMap) (S T : List String) :
    restrict (restrict m S) T = restrict m (S ++ T) := by
  simp only [restrict, List.filter_map, List.map_map, List.filter_filter]
  congr 1
  · funext kv
    simp only [Function.comp, List.filter_filter]
    congr 1
    apply List.filter_congr
    intro d _
    by_cases h1 : d ∈ S <;> by_cases h2 : d ∈ T <;> simp [h1, h2]
  · apply List.filter_congr
    intro kv _
    by_cases h1 : kv.1 ∈ S <;> by_cases h2 : kv.1 ∈ T <;> simp [h1, h2]

theorem mem_restrict {m : DepMap} {S : List String} {k : String} {ds : List String} :
    (k, ds) ∈ restrict m S ↔
      k ∉ S ∧ ∃ ds0, (k, ds0) ∈ m ∧ ds = ds0.filter (fun d => decide (d ∉ S)) := by
  simp only [restrict, List.mem_map, List.mem_filter, decide_eq_true_eq, Prod.mk.injEq,
    Prod.exists]
  constructor
  · rintro ⟨a, b, ⟨hm, hS⟩, rfl, rfl⟩
    exact ⟨hS, b, hm, rfl⟩
  · rintro ⟨hS, ds0, hm, rfl⟩
    exact ⟨k, ds0, ⟨hm, hS⟩, rfl, rfl⟩

theorem keys_restrict (m : DepMap) (S : List String) :
    keys (restrict m S) = (keys m).filter (fun k => decide (k ∉ S)) := by
  simp [keys, restrict, List.filter_map, Function.comp_def]

theorem length_restrict_le (m : DepMap) (S : List String) :
    (restrict m S).length ≤ m.length := by
  simp only [restrict, List.length_map]
  exact List.length_filter_le _ _

theorem length_restrict_lt {m : DepMap} (h : readyKeys m ≠ []) :
    (restrict m (readyKeys m)).length < m.length := by
  obtain ⟨k, hk⟩ := List.exists_mem_of_ne_nil _ h
  have hm : (k, []) ∈ m := mem_readyKeys.1 hk
  simp only [restrict, List.length_map]
  apply List.length_filter_lt_length_iff_exists.2
  exact ⟨(k, []), hm, by simpa using hk⟩

/-! ## The loop as a sequence of rounds -/

theorem buildLoop_step (fuel : Nat) (m : DepMap) (bs : List (List String))
    (h : readyKeys m ≠ []) :
    buildLoop (fuel + 1) m bs
      = buildLoop fuel (eraseReadyDeps (eraseReady m (readyKeys m)) (readyKeys m))
          (bs ++ [readyKeys m]) := by
  have hm : m ≠ [] := by
    rintro rfl
    exact h rfl
  simp [buildLoop, h, hm]

theorem buildLoop_stop (fuel : Nat) (m : DepMap) (bs : List (List String))
    (h : readyKeys m = []) :
    buildLoop (fuel + 1) m bs = some ⟨bs, m, finalErrors m⟩ := by
  by_cases hm : m = []
  · simp [buildLoop, hm, finalErrors]
  · simp [buildLoop, hm, h, finalErrors]

theorem buildLoop_rounds (fuel : Nat) (m : DepMap) (bs : List (List String))
    (h : m.length < fuel) :
    ∃ rs f, Rounds m rs f ∧ buildLoop fuel m bs = some ⟨bs ++ rs, f, finalErrors f⟩ := by
  induction fuel generalizing m bs with
  | zero => omega
  | succ fuel ih =>
    by_cases hr : readyKeys m = []
    · exact ⟨[], m, Rounds.done m hr, by simp [buildLoop_stop fuel m bs hr]⟩
    · have hlt := length_restrict_lt hr
      obtain ⟨rs, f, hR, hL⟩ := ih (restrict m (readyKeys m)) (bs ++ [readyKeys m]) (by omega)
      refine ⟨readyKeys m :: rs, f, Rounds.step m rs f hr hR, ?_⟩
      rw [buildLoop_step fuel m bs hr, round_eq_restrict, hL]
      simp

theorem buildDepBatches_rounds (m : DepMap) :
    ∃ rs f, Rounds m rs f ∧ buildDepBatches m = some ⟨rs, f, finalErrors f⟩ := by
  obtain ⟨rs, f, hR, hL⟩ := buildLoop_rounds (m.length + 1) m [] (by omega)
  exact ⟨rs, f, hR, by simpa [buildDepBatches] using hL⟩

theorem Rounds.final_ready {m f : DepMap} {rs : List (List String)} (h : Rounds m rs f) :
    readyKeys f = [] := by
  induction h with
  | done m hr => exact hr
  | step m rs f _ _ ih => exact ih

theorem Rounds.final_eq {m f : DepMap} {rs : List (List String)} (h : Rounds m rs f) :
    f = restrict m rs.flatten := by
  induction h with
  | done m hr => simp [restrict_nil]
  | step m rs f _ _ ih => rw [ih, restrict_restrict, List.flatten_cons]

theorem Rounds.unique {m f f' : DepMap} {rs rs' : List (List String)}
    (h : Rounds m rs f) (h' : Rounds m rs' f') : rs = rs' ∧ f = f' := by
  induction h generalizing rs' f' with
  | done m hr =>
    cases h' with
    | done _ _ => exact ⟨rfl, rfl⟩
    | step _ _ _ hne _ => exact absurd hr hne
  | step m rs f hne _ ih =>
    cases h' with
    | done _ hr => exact absurd hr hne
    | step _ rs2 _ _ h2 =>
      obtain ⟨h1, h3⟩ := ih h2
      exact ⟨by rw [h1], h3⟩

theorem buildDepBatches_some {m : DepMap} {r : BatchResult} (h : buildDepBatches m = some r) :
    Rounds m r.batches r.dep_map ∧ r.errors = finalErrors r.dep_map := by
  obtain ⟨rs, f, hR, hL⟩ := buildDepBatches_rounds m
  rw [hL] at h
  cases h
  exact ⟨hR, rfl⟩

/-! ## Keys are neither lost nor duplicated -/

theorem UniqueKeys.deps_eq {m : DepMap} (hu : UniqueKeys m) {k : String} {a b : List String}
    (ha : (k, a) ∈ m) (hb : (k, b) ∈ m) : a = b := by
  induction m with
  | nil => simp at ha
  | cons kv m ih =>
    have hnd : kv.1 ∉ keys m ∧ (keys m).Nodup := by
      simpa [UniqueKeys, keys] using hu
    rcases List.mem_cons.1 ha with rfl | ha'
    · rcases List.mem_cons.1 hb with hb' | hb'
      · exact (Prod.mk.inj hb').2.symm
      · exact absurd (mem_keys.2 ⟨b, hb'⟩) hnd.1
    · rcases List.mem_cons.1 hb with rfl | hb'
      · exact absurd (mem_keys.2 ⟨a, ha'⟩) hnd.1
      · exact ih hnd.2 ha' hb'

theorem UniqueKeys.restrict {m : DepMap} (hu : UniqueKeys m) (S : List String) :
    UniqueKeys (restrict m S) := by
  unfold UniqueKeys
  rw [keys_restrict]
  exact List.Nodup.filter _ hu

theorem readyKeys_eq_filter_keys {m : DepMap} (hu : UniqueKeys m) :
    readyKeys m = (keys m).filter (fun k => decide (k ∈ readyKeys m)) := by
  have h : ∀ kv ∈ m, kv.2.isEmpty = decide (kv.1 ∈ readyKeys m) := by
    rintro ⟨k, ds⟩ hkv
    by_cases hk : k ∈ readyKeys m
    · have := hu.deps_eq hkv (mem_readyKeys.1 hk)
      simp [hk, this]
    · have : ds ≠ [] := by
        rintro rfl
        exact hk (mem_readyKeys.2 hkv)
      simp [hk, this]
  conv_lhs => rw [readyKeys_eq]
  rw [List.filter_congr h]
  simp [keys, List.filter_map, Function.comp_def]

theorem round_keys_perm {m : DepMap} (hu : UniqueKeys m) :
    (readyKeys m ++ keys (restrict m (readyKeys m))).Perm (keys m) := by
  have h := List.filter_append_perm (fun k => decide (k ∈ readyKeys m)) (keys m)
  have e : (keys m).filter (fun k => decide (k ∉ readyKeys m))
      = (keys m).filter (fun k => !decide (k ∈ readyKeys m)) :=
    List.filter_congr (by intro k _; simp)
  have e1 : readyKeys m ++ keys (restrict m (readyKeys m))
      = (keys m).filter (fun k => decide (k ∈ readyKeys m))
        ++ (keys m).filter (fun k => !decide (k ∈ readyKeys m)) := by
    rw [keys_restrict, e, ← readyKeys_eq_filter_keys hu]
  rw [e1]
  exact h

theorem Rounds.keys_perm {m f : DepMap} {rs : List (List String)} (h : Rounds m rs f)
    (hu : UniqueKeys m) : (rs.flatten ++ keys f).Perm (keys m) := by
  induction h with
  | done m _ => simp
  | step m rs f _ _ ih =>
    have h1 := ih (hu.restrict _)
    rw [List.flatten_cons, List.append_assoc]
    exact (List.Perm.append_left _ h1).trans (round_keys_perm hu)

theorem Rounds.batch_subset_keys {m f : DepMap} {rs : List (List String)} (h : Rounds m rs f)
    {b : List String} (hb : b ∈ rs) {E : String} (hE : E ∈ b) : E ∈ keys m := by
  induction h with
  | done m _ => simp at hb
  | step m rs f _ _ ih =>
    rcases List.mem_cons.1 hb with rfl | hb'
    · exact mem_keys.2 ⟨[], mem_readyKeys.1 hE⟩
    · have := ih hb'
      rw [keys_restrict] at this
      exact (List.mem_filter.1 this).1

theorem Rounds.final_keys_subset {m f : DepMap} {rs : List (List String)} (h : Rounds m rs f)
    {E : String} (hE : E ∈ keys f) : E ∈ keys m := by
  rw [h.final_eq, keys_restrict] at hE
  exact (List.mem_filter.1 hE).1

/-! ## Dependencies are scheduled in earlier batches -/

theorem Rounds.deps_earlier {m f : DepMap} {rs : List (List String)} (h : Rounds m rs f)
    (hu : UniqueKeys m) (i : Nat) (b : List String) (hb : rs[i]? = some b)
    (E : String) (hE : E ∈ b) (ds : List String) (hds : (E, ds) ∈ m)
    (d : String) (hd : d ∈ ds) :
    ∃ j b', j < i ∧ rs[j]? = some b' ∧ d ∈ b' := by
  induction h generalizing i b ds with
  | done m _ => simp at hb
  | step m rs f _ hR ih =>
    cases i with
    | zero =>
      simp only [List.getElem?_cons_zero, Option.some.injEq] at hb
      subst hb
      have := hu.deps_eq hds (mem_readyKeys.1 hE)
      subst this
      simp at hd
    | succ i =>
      rw [List.getElem?_cons_succ] at hb
      by_cases hdR : d ∈ readyKeys m
      · exact ⟨0, readyKeys m, Nat.succ_pos i, by simp, hdR⟩
      · have hk : E ∈ keys (restrict m (readyKeys m)) :=
          hR.batch_subset_keys (List.getElem?_mem hb) hE
        obtain ⟨ds', hds'⟩ := mem_keys.1 hk
        obtain ⟨_, ds0, hds0, rfl⟩ := mem_restrict.1 hds'
        have := hu.deps_eq hds hds0
        subst this
        have hd' : d ∈ ds.filter (fun d => decide (d ∉ readyKeys m)) :=
          List.mem_filter.2 ⟨hd, by simpa using hdR⟩
        obtain ⟨j, b', hj, hb', hdb⟩ := ih (hu.restrict _) i b hb hE _ hds' hd'
        exact ⟨j + 1, b', Nat.succ_lt_succ hj, by simpa using hb', hdb⟩

/-! ## Which entities are scheduled -/

theorem Rounds.transGen_earlier {m f : DepMap} {rs : List (List String)} (h : Rounds m rs f)
    (hu : UniqueKeys m) {a c : String} (hac : Relation.TransGen (DepEdge m) a c) :
    ∀ (i : Nat) (b : List String), rs[i]? = some b → a ∈ b →
      ∃ j b', j < i ∧ rs[j]? = some b' ∧ c ∈ b' := by
  induction hac with
  | single hedge =>
    intro i b hb ha
    obtain ⟨ds, hds, hd⟩ := hedge
    exact h.deps_earlier hu i b hb _ ha ds hds _ hd
  | tail _ hedge ih =>
    intro i b hb ha
    obtain ⟨j, b', hj, hb', hmid⟩ := ih i b hb ha
    obtain ⟨ds, hds, hd⟩ := hedge
    obtain ⟨k, b'', hk, hb'', hc⟩ := h.deps_earlier hu j b' hb' _ hmid ds hds _ hd
    exact ⟨k, b'', Nat.lt_trans hk hj, hb'', hc⟩

theorem Rounds.not_onCycle {m f : DepMap} {rs : List (List String)} (h : Rounds m rs f)
    (hu : UniqueKeys m) {n : String} (i : Nat) :
    ∀ b, rs[i]? = some b → n ∈ b → ¬ OnCycle m n := by
  induction i using Nat.strong_induction_on with
  | _ i ih =>
    intro b hb hn hc
    obtain ⟨j, b', hj, hb', hn'⟩ := h.transGen_earlier hu hc i b hb hn
    exact ih j hj b' hb' hn' hc

theorem Rounds.reach_scheduled {m f : DepMap} {rs : List (List String)} (h : Rounds m rs f)
    (hu : UniqueKeys m) {E n : String} (hE : ∃ b ∈ rs, E ∈ b) (hn : Reach m E n) :
    ∃ b ∈ rs, n ∈ b := by
  rcases Relation.reflTransGen_iff_eq_or_transGen.1 hn with rfl | ht
  · exact hE
  · obtain ⟨b, hb, hEb⟩ := hE
    obtain ⟨i, hi⟩ := List.getElem?_of_mem hb
    obtain ⟨j, b', _, hb', hn'⟩ := h.transGen_earlier hu ht i b hi hEb
    exact ⟨b', List.getElem?_mem hb', hn'⟩

/-- An entity all of whose dependencies are scheduled is scheduled: the loop only
ends on a map without ready key. -/
theorem Rounds.scheduled_of_deps {m f : DepMap} {rs : List (List String)} (h : Rounds m rs f)
    {n : String} (hk : n ∈ keys m) (hd : ∀ d, DepEdge m n d → d ∈ rs.flatten) :
    n ∈ rs.flatten := by
  by_contra hn
  obtain ⟨ds, hds⟩ := mem_keys.1 hk
  have hf : (n, ds.filter (fun d => decide (d ∉ rs.flatten))) ∈ f := by
    rw [h.final_eq]
    exact mem_restrict.2 ⟨hn, ds, hds, rfl⟩
  have he : ds.filter (fun d => decide (d ∉ rs.flatten)) = [] := by
    rw [List.filter_eq_nil_iff]
    intro d hdd
    simpa using hd d ⟨ds, hds, hdd⟩
  rw [he] at hf
  have := mem_readyKeys.2 hf
  rw [h.final_ready] at this
  simp at this

theorem Rounds.scheduled_of_reach {m f : DepMap} {rs : List (List String)} (h : Rounds m rs f)
    {E : String} (hE : ∀ n, Reach m E n → n ∈ keys m ∧ ¬ OnCycle m n) :
    E ∈ rs.flatten := by
  have hfin : Set.Finite {n | Reach m E n} :=
    (List.finite_toSet (keys m)).subset (fun n hn => (hE n hn).1)
  haveI : Finite ↥{n | Reach m E n} := hfin.to_subtype
  let R : ↥{n | Reach m E n} → ↥{n | Reach m E n} → Prop :=
    fun x y => Relation.TransGen (DepEdge m) y.1 x.1
  haveI : IsTrans _ R := ⟨fun _ _ _ hxy hyz => Relation.TransGen.trans hyz hxy⟩
  haveI : IsIrrefl _ R := ⟨fun x hx => (hE x.1 x.2).2 hx⟩
  have hwf : WellFounded R := Finite.wellFounded_of_trans_of_irrefl R
  have key : ∀ x : ↥{n | Reach m E n}, x.1 ∈ rs.flatten := by
    intro x
    induction x using hwf.induction with
    | _ x ih =>
      apply h.scheduled_of_deps (hE x.1 x.2).1
      intro d hd
      exact ih ⟨d, Relation.ReflTransGen.tail x.2 hd⟩ (Relation.TransGen.single hd)
  exact key ⟨E, Relation.ReflTransGen.refl⟩

theorem reach_mem_keys {m : DepMap} (hc : ∀ kv ∈ m, ∀ d ∈ kv.2, d ∈ keys m) {E n : String}
    (hE : E ∈ keys m) (hn : Reach m E n) : n ∈ keys m := by
  induction hn with
  | refl => exact hE
  | tail _ hedge _ =>
    obtain ⟨ds, hds, hd⟩ := hedge
    exact hc _ hds _ hd

theorem no_cycle_of_rank (m : DepMap) (rank : String → Nat)
    (h : ∀ a b, DepEdge m a b → rank b < rank a) (n : String) : ¬ OnCycle m n := by
  have ht : ∀ a b, Relation.TransGen (DepEdge m) a b → rank b < rank a := by
    intro a b hab
    induction hab with
    | single e => exact h _ _ e
    | tail _ e ih => exact Nat.lt_trans (h _ _ e) ih
  intro hc
  exact Nat.lt_irrefl _ (ht n n hc)

theorem diamond_no_cycle (n : String) : ¬ OnCycle diamond n := by
  apply no_cycle_of_rank diamond (fun s => ["A", "B", "C", "D"].indexOf s)
  rintro a b ⟨ds, hds, hb⟩
  simp only [diamond, List.mem_cons, Prod.mk.injEq, List.mem_singleton, List.not_mem_nil,
    or_false] at hds
  rcases hds with ⟨rfl, rfl⟩ | ⟨rfl, rfl⟩ | ⟨rfl, rfl⟩ | ⟨rfl, rfl⟩
  · simp at hb
  · simp only [List.mem_singleton] at hb
    subst hb
    decide
  · simp only [List.mem_singleton] at hb
    subst hb
    decide
  · simp only [List.mem_cons, List.mem_singleton, List.not_mem_nil, or_false] at hb
    rcases hb with rfl | rfl <;> decide

/-! ## The error report -/

theorem classifyDeps_eq (m : DepMap) (deps : List String) :
    classifyDeps m deps
      = (deps.filter (fun d => !hasKey m d), deps.filter (fun d => hasKey m d)) := by
  have h : ∀ (l : List String) (acc : List String × List String),
      l.foldl (fun acc dep =>
          if hasKey m dep then (acc.1, acc.2 ++ [dep]) else (acc.1 ++ [dep], acc.2)) acc
        = (acc.1 ++ l.filter (fun d => !hasKey m d), acc.2 ++ l.filter (fun d => hasKey m d)) := by
    intro l
    induction l with
    | nil => intro acc; simp
    | cons d l ih =>
      intro acc
      rw [List.foldl_cons, ih]
      by_cases hd : hasKey m d = true
      · simp [hd]
      · simp [hd]
  simpa [classifyDeps] using h deps ([], [])

theorem describe_eq (m : DepMap) :
    describeDepenedencyErrors m
      = m.map (fun kv => ⟨kv.1, kv.2.filter (fun d => !hasKey m d),
          kv.2.filter (fun d => hasKey m d)⟩) := by
  simp [describeDepenedencyErrors, classifyDeps_eq]

/-- The report of an entry of a map with unique keys: there is one, and whatever
report names the entity holds the split of that entry. -/
theorem report_of_entry {f : DepMap} (hu : UniqueKeys f) {E : String} {ds : List String}
    (h : (E, ds) ∈ f) :
    (∃ rep ∈ describeDepenedencyErrors f, rep.entity = E) ∧
    ∀ rep ∈ describeDepenedencyErrors f, rep.entity = E →
      rep.unresolved = ds.filter (fun d => !hasKey f d) ∧
      rep.circular = ds.filter (fun d => hasKey f d) := by
  rw [describe_eq]
  constructor
  · exact ⟨_, List.mem_map.2 ⟨(E, ds), h, rfl⟩, rfl⟩
  · intro rep hrep he
    obtain ⟨⟨k, ds'⟩, hkv, rfl⟩ := List.mem_map.1 hrep
    simp only at he
    subst he
    have := hu.deps_eq h hkv
    subst this
    exact ⟨rfl, rfl⟩

theorem Rounds.final_unique {m f : DepMap} {rs : List (List String)} (h : Rounds m rs f)
    (hu : UniqueKeys m) : UniqueKeys f := by
  rw [h.final_eq]
  exact hu.restrict _

/-- An entity that is in no batch is still in the map at the end, with the
dependencies that were not scheduled, and the loop ended on a stall. -/
theorem Rounds.unscheduled {m f : DepMap} {rs : List (List String)} (h : Rounds m rs f)
    {E : String} {ds : List String} (hE : (E, ds) ∈ m) (hn : ∀ b ∈ rs, E ∉ b) :
    (E, ds.filter (fun d => decide (d ∉ rs.flatten))) ∈ f ∧
    finalErrors f = some (describeDepenedencyErrors f) := by
  have hS : E ∉ rs.flatten := by
    simpa [List.mem_flatten] using hn
  have hf : (E, ds.filter (fun d => decide (d ∉ rs.flatten))) ∈ f := by
    rw [h.final_eq]
    exact mem_restrict.2 ⟨hS, ds, hE, rfl⟩
  refine ⟨hf, ?_⟩
  have : f ≠ [] := List.ne_nil_of_mem hf
  simp [finalErrors, this]

/-! ## The iteration order of the map only reorders batches and reports -/

theorem readyKeys_perm {m m' : DepMap} (h : m.Perm m') :
    (readyKeys m).Perm (readyKeys m') := by
  rw [readyKeys_eq, readyKeys_eq]
  exact (h.filter _).map _

theorem restrict_congr (m : DepMap) {S S' : List String} (h : ∀ x, x ∈ S ↔ x ∈ S') :
    restrict m S = restrict m S' := by
  have e : (fun d : String => decide (d ∉ S)) = (fun d => decide (d ∉ S')) := by
    funext d
    simp [h d]
  have e' : (fun kv : String × List String => decide (kv.1 ∉ S))
      = (fun kv => decide (kv.1 ∉ S')) := by
    funext kv
    simp [h kv.1]
  simp only [restrict, e, e']

theorem restrict_perm {m m' : DepMap} (h : m.Perm m') {S S' : List String} (hS : S.Perm S') :
    (restrict m S).Perm (restrict m' S') := by
  rw [restrict_congr m (fun x => hS.mem_iff)]
  exact (h.filter _).map _

theorem Rounds.perm {m f : DepMap} {rs : List (List String)} (h : Rounds m rs f)
    {m' : DepMap} (hp : m.Perm m') :
    ∃ rs' f', Rounds m' rs' f' ∧ List.Forall₂ List.Perm rs rs' ∧ f.Perm f' := by
  induction h generalizing m' with
  | done m hr =>
    have hr' : readyKeys m' = [] := by
      have := readyKeys_perm hp
      rw [hr] at this
      exact List.nil_perm.1 this
    exact ⟨[], m', Rounds.done m' hr', List.Forall₂.nil, hp⟩
  | step m rs f hne _ ih =>
    have hrp := readyKeys_perm hp
    have hne' : readyKeys m' ≠ [] := by
      intro h0
      rw [h0] at hrp
      exact hne (List.perm_nil.1 hrp)
    obtain ⟨rs', f', hR', hF, hf⟩ := ih (restrict_perm hp hrp)
    exact ⟨readyKeys m' :: rs', f', Rounds.step m' rs' f' hne' hR', List.Forall₂.cons hrp hF, hf⟩

theorem describe_perm {f f' : DepMap} (h : f.Perm f') :
    (describeDepenedencyErrors f).Perm (describeDepenedencyErrors f') := by
  have e : hasKey f = hasKey f' := by
    funext k
    rw [Bool.eq_iff_iff, hasKey_iff, hasKey_iff]
    exact (h.map Prod.fst).mem_iff
  rw [describe_eq, describe_eq, e]
  exact h.map _

/-- Two iteration orders of the same map give the same number of batches, batch by
batch the same entities, the same entries left in the map, and the same reports. -/
theorem buildDepBatches_perm {m m' : DepMap} (hp : m.Perm m') {r : BatchResult}
    (h : buildDepBatches m = some r) :
    ∃ r', buildDepBatches m' = some r' ∧ List.Forall₂ List.Perm r.batches r'.batches ∧
      r.dep_map.Perm r'.dep_map ∧ r'.errors = finalErrors r'.dep_map := by
  obtain ⟨hR, _⟩ := buildDepBatches_some h
  obtain ⟨rs', f', hR', hF, hf⟩ := hR.perm hp
  obtain ⟨rs2, f2, hR2, hL2⟩ := buildDepBatches_rounds m'
  obtain ⟨rfl, rfl⟩ := hR'.unique hR2
  exact ⟨_, hL2, hF, hf, rfl⟩

theorem perm_pair {l : List String} {a b : String} (h : l.Perm [a, b]) :
    l = [a, b] ∨ l = [b, a] := by
  have hl := h.length_eq
  match l, hl with
  | [x, y], _ =>
    have hx : x = a ∨ x = b := by simpa using h.mem_iff.1 (List.mem_cons_self x [y])
    have hy : y = a ∨ y = b := by
      simpa using h.mem_iff.1 (List.mem_cons_of_mem x (List.mem_cons_self y []))
    have ha : a = x ∨ a = y := by simpa using h.mem_iff.2 (List.mem_cons_self a [b])
    have hb : b = x ∨ b = y := by
      simpa using h.mem_iff.2 (List.mem_cons_of_mem a (List.mem_cons_self b []))
    rcases hx with rfl | rfl
    · rcases hy with rfl | rfl
      · rcases hb with rfl | rfl <;> simp
      · simp
    · rcases hy with rfl | rfl
      · simp
      · rcases ha with rfl | rfl <;> simp

/-! ## The batch of an entity -/

/-- The batch of index `i` is the ready set of the map after `i` rounds. -/
theorem Rounds.batch_eq {m f : DepMap} {rs : List (List String)} (h : Rounds m rs f)
    (i : Nat) (b : List String) (hb : rs[i]? = some b) :
    b = readyKeys (restrict m (rs.take i).flatten) := by
  induction h generalizing i with
  | done m _ => simp at hb
  | step m rs f _ _ ih =>
    cases i with
    | zero =>
      simp only [List.getElem?_cons_zero, Option.some.injEq] at hb
      simp [restrict_nil, hb]
    | succ i =>
      rw [List.getElem?_cons_succ] at hb
      rw [ih i hb, restrict_restrict]
      simp

theorem Rounds.index_unique {m f : DepMap} {rs : List (List String)} (h : Rounds m rs f)
    {i j : Nat} {b b' : List String} (hb : rs[i]? = some b) (hb' : rs[j]? = some b')
    {E : String} (hE : E ∈ b) (hE' : E ∈ b') : i = j := by
  induction h generalizing i j with
  | done m _ => simp at hb
  | step m rs f _ hR ih =>
    have hlate : ∀ (k : Nat) (c : List String), rs[k]? = some c → E ∈ c →
        E ∉ readyKeys m := by
      intro k c hc hEc hr
      have := hR.batch_subset_keys (List.getElem?_mem hc) hEc
      rw [keys_restrict] at this
      simpa [hr] using (List.mem_filter.1 this).2
    cases i with
    | zero =>
      cases j with
      | zero => rfl
      | succ j =>
        simp only [List.getElem?_cons_zero, Option.some.injEq] at hb
        rw [List.getElem?_cons_succ] at hb'
        subst hb
        exact absurd hE (hlate j b' hb' hE')
    | succ i =>
      cases j with
      | zero =>
        simp only [List.getElem?_cons_zero, Option.some.injEq] at hb'
        rw [List.getElem?_cons_succ] at hb
        subst hb'
        exact absurd hE' (hlate i b hb hE)
      | succ j =>
        rw [List.getElem?_cons_succ] at hb hb'
        rw [ih hb hb']

/-- An entity with dependencies is scheduled in the round that follows the batch of
one of its dependencies. -/
theorem Rounds.index_succ {m f : DepMap} {rs : List (List String)} (h : Rounds m rs f)
    (hu : UniqueKeys m) (i : Nat) (b : List String) (hb : rs[i]? = some b)
    (E : String) (hE : E ∈ b) (ds : List String) (hds : (E, ds) ∈ m) (hne : ds ≠ []) :
    ∃ j b', i = j + 1 ∧ rs[j]? = some b' ∧ ∃ d ∈ ds, d ∈ b' := by
  induction h generalizing i b ds with
  | done m _ => simp at hb
  | step m rs f _ hR ih =>
    cases i with
    | zero =>
      simp only [List.getElem?_cons_zero, Option.some.injEq] at hb
      subst hb
      exact absurd (hu.deps_eq hds (mem_readyKeys.1 hE)) hne
    | succ i =>
      rw [List.getElem?_cons_succ] at hb
      have hk : E ∈ keys (restrict m (readyKeys m)) :=
        hR.batch_subset_keys (List.getElem?_mem hb) hE
      obtain ⟨ds', hds'⟩ := mem_keys.1 hk
      obtain ⟨_, ds0, hds0, rfl⟩ := mem_restrict.1 hds'
      have := hu.deps_eq hds hds0
      subst this
      by_cases he : ds.filter (fun d => decide (d ∉ readyKeys m)) = []
      · rw [he] at hds'
        have h0 : E ∈ readyKeys (restrict m (readyKeys m)) := mem_readyKeys.2 hds'
        have hb0 : rs[0]? = some (readyKeys (restrict m (readyKeys m))) := by
          cases hR with
          | done _ hr => rw [hr] at h0; simp at h0
          | step _ _ _ _ _ => simp
        have hi : i = 0 := hR.index_unique hb hb0 hE h0
        subst hi
        obtain ⟨d, hd⟩ := List.exists_mem_of_ne_nil _ hne
        have hdr : d ∈ readyKeys m := by
          have := (List.filter_eq_nil_iff.1 he) d hd
          simpa using this
        exact ⟨0, readyKeys m, rfl, by simp, d, hd, hdr⟩
      · obtain ⟨j, b', hj, hb', d, hd, hdb⟩ := ih (hu.restrict _) i b hb hE _ hds' he
        exact ⟨j + 1, b', by rw [hj], by simpa using hb', d, (List.mem_filter.1 hd).1, hdb⟩

/-! ## The descendant traversal -/

theorem dfs_succ (fuel : Nat) (g : Graph) (n : String) :
    dfs (fuel + 1) g n = (succs g n).foldlM (dfsStep (dfs fuel g)) [] := rfl

theorem collect_children {f : String → Option (List String)} {l : List String}
    {acc r : List String} (h : l.foldlM (dfsStep f) acc = some r) :
    ∀ c ∈ l, ∃ ds, f c = some ds := by
  induction l generalizing acc with
  | nil => simp
  | cons a l ih =>
    rw [List.foldlM_cons] at h
    cases hfa : f a with
    | none => simp [dfsStep, hfa] at h
    | some ds =>
      simp only [dfsStep, hfa, Option.map_some', Option.some_bind, Option.bind_eq_bind] at h
      intro c hc
      rcases List.mem_cons.1 hc with rfl | hc'
      · exact ⟨ds, hfa⟩
      · exact ih h c hc'

theorem collect_some {f : String → Option (List String)} {l : List String}
    (acc : List String) (h : ∀ c ∈ l, ∃ ds, f c = some ds) :
    ∃ r, l.foldlM (dfsStep f) acc = some r := by
  induction l generalizing acc with
  | nil => exact ⟨acc, rfl⟩
  | cons a l ih =>
    obtain ⟨ds, hds⟩ := h a (List.mem_cons_self a l)
    obtain ⟨r, hr⟩ := ih (acc ++ a :: ds) (fun c hc => h c (List.mem_cons_of_mem a hc))
    refine ⟨r, ?_⟩
    rw [List.foldlM_cons]
    simpa [dfsStep, hds] using hr

theorem collect_mono {f f' : String → Option (List String)} {l : List String}
    {acc r : List String} (h : l.foldlM (dfsStep f) acc = some r)
    (hf : ∀ c ∈ l, ∀ ds, f c = some ds → f' c = some ds) :
    l.foldlM (dfsStep f') acc = some r := by
  induction l generalizing acc with
  | nil => simpa using h
  | cons a l ih =>
    rw [List.foldlM_cons] at h ⊢
    cases hfa : f a with
    | none => simp [dfsStep, hfa] at h
    | some ds =>
      simp only [dfsStep, hfa, Option.map_some', Option.some_bind, Option.bind_eq_bind] at h
      have := ih h (fun c hc => hf c (List.mem_cons_of_mem a hc))
      simpa [dfsStep, hf a (List.mem_cons_self a l) ds hfa] using this

theorem collect_mem {f : String → Option (List String)} {l : List String}
    {acc r : List String} (h : l.foldlM (dfsStep f) acc = some r) (x : String) :
    x ∈ r ↔ x ∈ acc ∨ ∃ c ∈ l, x = c ∨ ∃ ds, f c = some ds ∧ x ∈ ds := by
  induction l generalizing acc with
  | nil =>
    simp only [List.foldlM_nil, Option.pure_def, Option.some.injEq] at h
    subst h
    simp
  | cons a l ih =>
    rw [List.foldlM_cons] at h
    cases hfa : f a with
    | none => simp [dfsStep, hfa] at h
    | some ds =>
      simp only [dfsStep, hfa, Option.map_some', Option.some_bind, Option.bind_eq_bind] at h
      rw [ih h]
      simp only [List.mem_append, List.mem_cons]
      constructor
      · rintro ((hx | rfl | hx) | ⟨c, hc, hx⟩)
        · exact Or.inl hx
        · exact Or.inr ⟨x, Or.inl rfl, Or.inl rfl⟩
        · exact Or.inr ⟨a, Or.inl rfl, Or.inr ⟨ds, hfa, hx⟩⟩
        · exact Or.inr ⟨c, Or.inr hc, hx⟩
      · rintro (hx | ⟨c, rfl | hc, hx⟩)
        · exact Or.inl (Or.inl hx)
        · rcases hx with rfl | ⟨ds', hds', hx⟩
          · exact Or.inl (Or.inr (Or.inl rfl))
          · rw [hfa] at hds'
            cases hds'
            exact Or.inl (Or.inr (Or.inr hx))
        · exact Or.inr ⟨c, hc, hx⟩

theorem dfs_mono {fuel : Nat} {g : Graph} {n : String} {r : List String}
    (h : dfs fuel g n = some r) : dfs (fuel + 1) g n = some r := by
  induction fuel generalizing n r with
  | zero => simp [dfs] at h
  | succ fuel ih =>
    rw [dfs_succ] at h ⊢
    exact collect_mono h (fun c _ ds hds => ih hds)

theorem dfs_mono_le {fuel fuel' : Nat} {g : Graph} {n : String} {r : List String}
    (h : dfs fuel g n = some r) (hle : fuel ≤ fuel') : dfs fuel' g n = some r := by
  induction hle with
  | refl => exact h
  | step _ ih => exact dfs_mono ih

/-- What `dfs` returns on a node is the names reachable from it by one or more
successor edges. -/
theorem dfs_mem {fuel : Nat} {g : Graph} {n : String} {r : List String}
    (h : dfs fuel g n = some r) (x : String) :
    x ∈ r ↔ Relation.TransGen (GEdge g) n x := by
  induction fuel generalizing n r x with
  | zero => simp [dfs] at h
  | succ fuel ih =>
    rw [dfs_succ] at h
    rw [collect_mem h, Relation.TransGen.head'_iff]
    simp only [List.not_mem_nil, false_or]
    constructor
    · rintro ⟨c, hc, hx⟩
      refine ⟨c, hc, ?_⟩
      rcases hx with rfl | ⟨ds, hds, hxd⟩
      · exact Relation.ReflTransGen.refl
      · exact ((ih hds x).1 hxd).to_reflTransGen
    · rintro ⟨c, hc, hx⟩
      refine ⟨c, hc, ?_⟩
      rcases Relation.reflTransGen_iff_eq_or_transGen.1 hx with rfl | ht
      · exact Or.inl rfl
      · obtain ⟨ds, hds⟩ := collect_children h c hc
        exact Or.inr ⟨ds, hds, (ih hds x).2 ht⟩

/-! ## The traversal ends on a graph without cycle -/

theorem lookup_mem {g : Graph} {a : String} {l : List String} (h : g.lookup a = some l) :
    (a, l) ∈ g := by
  induction g with
  | nil => simp at h
  | cons kv g ih =>
    obtain ⟨k, v⟩ := kv
    rw [List.lookup_cons] at h
    by_cases hk : (a == k) = true
    · simp only [hk] at h
      have hak : a = k := by simpa using hk
      cases h
      subst hak
      exact List.mem_cons_self _ _
    · simp only [hk] at h
      exact List.mem_cons_of_mem _ (ih h)

theorem succs_entry {g : Graph} {a b : String} (h : b ∈ succs g a) :
    ∃ l, (a, l) ∈ g ∧ b ∈ l := by
  unfold succs at h
  cases hl : g.lookup a with
  | none => simp [hl] at h
  | some l =>
    rw [hl] at h
    exact ⟨l, lookup_mem hl, h⟩

theorem succs_mem_targets {g : Graph} {a b : String} (h : b ∈ succs g a) :
    b ∈ (g.map Prod.snd).flatten := by
  obtain ⟨l, hl, hb⟩ := succs_entry h
  exact List.mem_flatten.2 ⟨l, List.mem_map.2 ⟨(a, l), hl, rfl⟩, hb⟩

theorem succs_eq_nil_of_not_key {g : Graph} {a : String} (h : a ∉ keys g) :
    succs g a = [] := by
  cases hs : succs g a with
  | nil => rfl
  | cons b l =>
    have hb : b ∈ succs g a := by rw [hs]; exact List.mem_cons_self _ _
    obtain ⟨l', hl', _⟩ := succs_entry hb
    exact absurd (mem_keys.2 ⟨l', hl'⟩) h

theorem SubGraph.sub_refl (g : Graph) : SubGraph g g := fun _ _ h => h

theorem SubGraph.sub_trans {g1 g2 g3 : Graph} (h12 : SubGraph g1 g2) (h23 : SubGraph g2 g3) :
    SubGraph g1 g3 := fun a _ h => h23 a (h12 a h)

theorem SubGraph.sub_transGen {g g0 : Graph} (h : SubGraph g g0) {a b : String}
    (hab : Relation.TransGen (GEdge g) a b) : Relation.TransGen (GEdge g0) a b :=
  Relation.TransGen.mono (fun x _ hxy => h x hxy) hab

theorem SubGraph.sub_acyclic {g g0 : Graph} (h : SubGraph g g0) (hac : GAcyclic g0) :
    GAcyclic g := fun n hn => hac n (h.sub_transGen hn)

theorem acc_of_acyclic {g : Graph} (hac : GAcyclic g) (n : String) :
    Acc (fun c a => GEdge g a c) n := by
  have hfin : Set.Finite {x | x ∈ (g.map Prod.snd).flatten} := List.finite_toSet _
  haveI : Finite ↥{x | x ∈ (g.map Prod.snd).flatten} := hfin.to_subtype
  let R : ↥{x | x ∈ (g.map Prod.snd).flatten} → ↥{x | x ∈ (g.map Prod.snd).flatten} → Prop :=
    fun x y => Relation.TransGen (GEdge g) y.1 x.1
  haveI : IsTrans _ R := ⟨fun _ _ _ hxy hyz => Relation.TransGen.trans hyz hxy⟩
  haveI : IsIrrefl _ R := ⟨fun x hx => hac x.1 hx⟩
  have hwf : WellFounded R := Finite.wellFounded_of_trans_of_irrefl R
  have key : ∀ x : ↥{x | x ∈ (g.map Prod.snd).flatten}, Acc (fun c a => GEdge g a c) x.1 := by
    intro x
    induction x using hwf.induction with
    | _ x ih =>
      exact Acc.intro _ (fun c hc =>
        ih ⟨c, succs_mem_targets hc⟩ (Relation.TransGen.single hc))
  exact Acc.intro _ (fun c hc => key ⟨c, succs_mem_targets hc⟩)

theorem exists_uniform {P : String → Nat → Prop}
    (hmono : ∀ c F F', F ≤ F' → P c F → P c F') (l : List String)
    (h : ∀ c ∈ l, ∃ F, P c F) : ∃ F, ∀ c ∈ l, P c F := by
  induction l with
  | nil => exact ⟨0, by simp⟩
  | cons a l ih =>
    obtain ⟨F1, h1⟩ := h a (List.mem_cons_self a l)
    obtain ⟨F2, h2⟩ := ih (fun c hc => h c (List.mem_cons_of_mem a hc))
    refine ⟨max F1 F2, fun c hc => ?_⟩
    rcases List.mem_cons.1 hc with rfl | hc'
    · exact hmono _ _ _ (Nat.le_max_left _ _) h1
    · exact hmono _ _ _ (Nat.le_max_right _ _) (h2 c hc')

theorem dfs_total_node {g0 : Graph} (hac : GAcyclic g0) (n : String) :
    ∃ F, ∀ g, SubGraph g g0 → ∃ r, dfs F g n = some r := by
  induction acc_of_acyclic hac n with
  | intro n _ ih =>
    obtain ⟨F, hF⟩ := exists_uniform
      (P := fun c F => ∀ g, SubGraph g g0 → ∃ r, dfs F g c = some r)
      (fun c F F' hle h g hg => by
        obtain ⟨r, hr⟩ := h g hg
        exact ⟨r, dfs_mono_le hr hle⟩)
      (succs g0 n) (fun c hc => ih c hc)
    refine ⟨F + 1, fun g hg => ?_⟩
    rw [dfs_succ]
    exact collect_some [] (fun c hc => hF c (hg n hc) g hg)

/-- On a graph without cycle one depth bound serves every node and every graph with
fewer edges. -/
theorem dfs_total {g0 : Graph} (hac : GAcyclic g0) :
    ∃ F, ∀ fuel, F ≤ fuel → ∀ g, SubGraph g g0 → ∀ n, ∃ r, dfs fuel g n = some r := by
  obtain ⟨F, hF⟩ := exists_uniform
    (P := fun c F => ∀ g, SubGraph g g0 → ∃ r, dfs F g c = some r)
    (fun c F F' hle h g hg => by
      obtain ⟨r, hr⟩ := h g hg
      exact ⟨r, dfs_mono_le hr hle⟩)
    (keys g0) (fun c _ => dfs_total_node hac c)
  refine ⟨F + 1, fun fuel hle g hg n => ?_⟩
  by_cases hn : n ∈ keys g0
  · obtain ⟨r, hr⟩ := hF n hn g hg
    exact ⟨r, dfs_mono_le hr (by omega)⟩
  · obtain ⟨k, rfl⟩ : ∃ k, fuel = k + 1 := ⟨fuel - 1, by omega⟩
    have : succs g n = [] := by
      have h0 := succs_eq_nil_of_not_key hn
      have := hg n
      rw [h0] at this
      exact List.subset_nil.1 this
    exact ⟨[], by rw [dfs_succ, this]; rfl⟩

/-! ## Erasing successors -/

theorem lookup_map_update (g : Graph) (n0 a : String) (h : List String → List String) :
    (g.map (fun kv => if kv.1 == n0 then (kv.1, h kv.2) else kv)).lookup a
      = (g.lookup a).map (fun v => if a = n0 then h v else v) := by
  induction g with
  | nil => rfl
  | cons kv g ih =>
    obtain ⟨k, v⟩ := kv
    by_cases hk : k = n0
    · subst hk
      by_cases ha : a = k
      · subst ha
        simp [List.lookup_cons]
      · have : (a == k) = false := by simpa using ha
        simp only [List.map_cons, beq_self_eq_true, if_true, List.lookup_cons, this, ih]
    · have hk' : (k == n0) = false := by simpa using hk
      by_cases ha : a = k
      · subst ha
        simp [List.lookup_cons, hk', hk]
      · have : (a == k) = false := by simpa using ha
        simp only [List.map_cons, hk', List.lookup_cons, this, Bool.false_eq_true, if_false]
        exact ih

theorem succs_eraseSucc (g : Graph) (n0 n3 a : String) :
    succs (eraseSucc g n0 n3) a = if a = n0 then setErase (succs g n0) n3 else succs g a := by
  unfold succs eraseSucc
  rw [lookup_map_update g n0 a (fun v => setErase v n3)]
  by_cases ha : a = n0
  · subst ha
    cases g.lookup a <;> simp [setErase]
  · cases g.lookup a <;> simp [ha]

theorem succs_eraseFound (g : Graph) (n0 : String) (ds : List String) (a : String) :
    succs (eraseFound g n0 ds) a
      = if a = n0 then (succs g n0).filter (fun x => decide (x ∉ ds)) else succs g a := by
  unfold eraseFound
  induction ds generalizing g with
  | nil => by_cases ha : a = n0 <;> simp [ha]
  | cons d ds ih =>
    rw [List.foldl_cons, ih]
    have h1 : ∀ b, succs (if (succs g n0).contains d then eraseSucc g n0 d else g) b
        = if b = n0 then setErase (succs g n0) d else succs g b := by
      intro b
      by_cases hc : (succs g n0).contains d = true
      · simp only [hc, if_true, succs_eraseSucc]
      · simp only [hc]
        by_cases hb : b = n0
        · subst hb
          have hd : d ∉ succs g b := by simpa using hc
          simp only [if_true, setErase, Bool.false_eq_true, if_false]
          symm
          rw [List.filter_eq_self]
          intro x hx
          have : x ≠ d := fun h => hd (h ▸ hx)
          simpa using this
        · simp [hb]
    by_cases ha : a = n0
    · subst ha
      simp only [if_true, h1, setErase, List.filter_filter]
      apply List.filter_congr
      intro x _
      by_cases hx1 : x = d <;> by_cases hx2 : x ∈ ds <;> simp [hx1, hx2]
    · simp only [ha, if_false, h1]

theorem eraseFound_eq_self (g : Graph) (n0 : String) (ds : List String)
    (h : ∀ d ∈ ds, d ∉ succs g n0) : eraseFound g n0 ds = g := by
  unfold eraseFound
  induction ds with
  | nil => rfl
  | cons d ds ih =>
    have hd : (succs g n0).contains d = false := by
      simpa using h d (List.mem_cons_self d ds)
    rw [List.foldl_cons]
    simp only [hd, Bool.false_eq_true, if_false]
    exact ih (fun x hx => h x (List.mem_cons_of_mem d hx))

theorem KeepsReach.keeps_transGen {g' g : Graph} (h : KeepsReach g' g) {a b : String}
    (hab : Relation.TransGen (GEdge g) a b) : Relation.TransGen (GEdge g') a b := by
  induction hab with
  | single e => exact h _ _ e
  | tail _ e ih => exact ih.trans (h _ _ e)

theorem KeepsReach.keeps_trans {g1 g2 g3 : Graph} (h12 : KeepsReach g1 g2) (h23 : KeepsReach g2 g3) :
    KeepsReach g1 g3 := fun a b e => h12.keeps_transGen (h23 a b e)

theorem KeepsReach.keeps_refl (g : Graph) : KeepsReach g g := fun _ _ e => Relation.TransGen.single e

theorem NoRedundant.sub {g' g : Graph} (hs : SubGraph g' g) {n0 : String}
    (h : NoRedundant g n0) : NoRedundant g' n0 :=
  fun n1 h1 n3 h3 ht => h n1 (hs n0 h1) n3 (hs n0 h3) (hs.sub_transGen ht)

/-- Erasing from `graph[n0]` what is reachable from a successor `n1` of `n0` takes
away edges only and keeps every edge implied by a path. -/
theorem eraseFound_spec {g : Graph} (hac : GAcyclic g) {n0 n1 : String} {ds : List String}
    (h1 : n1 ∈ succs g n0) (hds : ∀ x, x ∈ ds ↔ Relation.TransGen (GEdge g) n1 x) :
    SubGraph (eraseFound g n0 ds) g ∧ KeepsReach (eraseFound g n0 ds) g := by
  have hsub : SubGraph (eraseFound g n0 ds) g := by
    intro a x hx
    rw [succs_eraseFound] at hx
    by_cases ha : a = n0
    · subst ha
      simp only [if_true] at hx
      exact (List.mem_filter.1 hx).1
    · simpa [ha] using hx
  have hkeep : ∀ a b, GEdge g a b → ¬ (a = n0 ∧ b ∈ ds) → GEdge (eraseFound g n0 ds) a b := by
    intro a b e hne
    show b ∈ succs (eraseFound g n0 ds) a
    rw [succs_eraseFound]
    by_cases ha : a = n0
    · subst ha
      simp only [if_true]
      exact List.mem_filter.2 ⟨e, by simpa using fun hb => hne ⟨rfl, hb⟩⟩
    · simpa [ha] using e
  have hn1 : n1 ∉ ds := fun h => hac n1 ((hds n1).1 h)
  have hpath : ∀ x, Relation.TransGen (GEdge g) n1 x →
      Relation.TransGen (GEdge (eraseFound g n0 ds)) n1 x := by
    intro x hx
    induction hx with
    | single e =>
      refine Relation.TransGen.single (hkeep _ _ e ?_)
      rintro ⟨rfl, _⟩
      exact hac _ (Relation.TransGen.single h1)
    | tail hab e ih =>
      refine ih.tail (hkeep _ _ e ?_)
      rintro ⟨rfl, _⟩
      exact hac _ (Relation.TransGen.head h1 hab)
  refine ⟨hsub, fun a b e => ?_⟩
  by_cases hab : a = n0 ∧ b ∈ ds
  · obtain ⟨rfl, hb⟩ := hab
    exact Relation.TransGen.head (hkeep _ _ h1 (fun h => hn1 h.2)) (hpath b ((hds b).1 hb))
  · exact Relation.TransGen.single (hkeep a b e hab)

/-! ## The reduction -/

theorem reduceNode_mono {fuel fuel' : Nat} (hle : fuel ≤ fuel') (n0 : String)
    (todo : List String) (g g' : Graph) (h : reduceNode fuel n0 g todo = some g') :
    reduceNode fuel' n0 g todo = some g' := by
  induction todo generalizing g with
  | nil => simpa [reduceNode] using h
  | cons n1 todo ih =>
    by_cases hc : (succs g n0).contains n1 = true
    · simp only [reduceNode, hc, if_true] at h ⊢
      cases hd : dfs fuel g n1 with
      | none => simp [hd] at h
      | some ds =>
        rw [hd] at h
        rw [dfs_mono_le hd hle]
        exact ih _ h
    · simp only [reduceNode, hc] at h ⊢
      exact ih _ h

theorem reduceLoop_cons (fuel : Nat) (n0 : String) (nodes : List String) (g : Graph) :
    reduceLoop fuel (n0 :: nodes) g
      = (reduceNode fuel n0 g (succs g n0)).bind (fun g1 => reduceLoop fuel nodes g1) := by
  simp [reduceLoop, List.foldlM_cons]

theorem reduceLoop_mono {fuel fuel' : Nat} (hle : fuel ≤ fuel') (nodes : List String)
    (g g' : Graph) (h : reduceLoop fuel nodes g = some g') :
    reduceLoop fuel' nodes g = some g' := by
  induction nodes generalizing g with
  | nil => simpa [reduceLoop] using h
  | cons n0 nodes ih =>
    rw [reduceLoop_cons] at h ⊢
    cases h1 : reduceNode fuel n0 g (succs g n0) with
    | none => simp [h1] at h
    | some g1 =>
      rw [h1] at h
      rw [reduceNode_mono hle n0 _ g g1 h1]
      exact ih g1 h

/-- The loop over the successors of `n0`, on a graph where `dfs` ends: it returns a
graph with fewer edges that keeps every edge implied, differs at `n0` only, and
has no redundant edge at `n0`. -/
theorem reduceNode_spec {g0 : Graph} (hac : GAcyclic g0) {fuel : Nat}
    (hF : ∀ g, SubGraph g g0 → ∀ n, ∃ r, dfs fuel g n = some r) (n0 : String)
    (todo : List String) (g : Graph) (hg : SubGraph g g0)
    (hJ : ∀ n1 ∈ succs g n0, n1 ∉ todo → ∀ n3 ∈ succs g n0,
      ¬ Relation.TransGen (GEdge g) n1 n3) :
    ∃ g', reduceNode fuel n0 g todo = some g' ∧ SubGraph g' g ∧ KeepsReach g' g ∧
      NoRedundant g' n0 := by
  induction todo generalizing g with
  | nil =>
    exact ⟨g, rfl, SubGraph.sub_refl g, KeepsReach.keeps_refl g,
      fun n1 h1 n3 h3 => hJ n1 h1 (List.not_mem_nil n1) n3 h3⟩
  | cons n1 todo ih =>
    by_cases hc : (succs g n0).contains n1 = true
    · have h1 : n1 ∈ succs g n0 := by simpa using hc
      obtain ⟨ds, hds⟩ := hF g hg n1
      obtain ⟨hs1, hk1⟩ := eraseFound_spec (hg.sub_acyclic hac) h1 (dfs_mem hds)
      have hJ1 : ∀ a ∈ succs (eraseFound g n0 ds) n0, a ∉ todo →
          ∀ n3 ∈ succs (eraseFound g n0 ds) n0,
            ¬ Relation.TransGen (GEdge (eraseFound g n0 ds)) a n3 := by
        intro a ha hat n3 h3 ht
        have ht' := hs1.sub_transGen ht
        by_cases ha1 : a = n1
        · subst ha1
          have h3d : n3 ∈ ds := (dfs_mem hds n3).2 ht'
          rw [succs_eraseFound] at h3
          simp only [if_true] at h3
          simpa [h3d] using (List.mem_filter.1 h3).2
        · exact hJ a (hs1 n0 ha) (by simp [ha1, hat]) n3 (hs1 n0 h3) ht'
      obtain ⟨g', hr, hs, hk, hn⟩ := ih (eraseFound g n0 ds) (hs1.sub_trans hg) hJ1
      refine ⟨g', ?_, hs.sub_trans hs1, hk.keeps_trans hk1, hn⟩
      simp only [reduceNode, hc, if_true, hds]
      exact hr
    · have h1 : n1 ∉ succs g n0 := by simpa using hc
      have hJ1 : ∀ a ∈ succs g n0, a ∉ todo → ∀ n3 ∈ succs g n0,
          ¬ Relation.TransGen (GEdge g) a n3 := by
        intro a ha hat
        have : a ≠ n1 := fun h => h1 (h ▸ ha)
        exact hJ a ha (by simp [this, hat])
      obtain ⟨g', hr, hs, hk, hn⟩ := ih g hg hJ1
      refine ⟨g', ?_, hs, hk, hn⟩
      simp only [reduceNode, hc]
      exact hr

theorem reduceLoop_spec {g0 : Graph} (hac : GAcyclic g0) {fuel : Nat}
    (hF : ∀ g, SubGraph g g0 → ∀ n, ∃ r, dfs fuel g n = some r)
    (nodes : List String) (g : Graph) (hg : SubGraph g g0) :
    ∃ g', reduceLoop fuel nodes g = some g' ∧ SubGraph g' g ∧ KeepsReach g' g ∧
      ∀ n0 ∈ nodes, NoRedundant g' n0 := by
  induction nodes generalizing g with
  | nil => exact ⟨g, rfl, SubGraph.sub_refl g, KeepsReach.keeps_refl g, by simp⟩
  | cons n0 nodes ih =>
    obtain ⟨g1, hr1, hs1, hk1, hn1⟩ := reduceNode_spec hac hF n0 (succs g n0) g hg
      (fun n1 h1 h1' => absurd h1 h1')
    obtain ⟨g', hr, hs, hk, hn⟩ := ih g1 (hs1.sub_trans hg)
    refine ⟨g', ?_, hs.sub_trans hs1, hk.keeps_trans hk1, ?_⟩
    · rw [reduceLoop_cons, hr1]
      exact hr
    · intro a ha
      rcases List.mem_cons.1 ha with rfl | ha'
      · exact hn1.sub hs
      · exact hn a ha'

/-- The reduction of a graph without cycle: with enough fuel it returns a graph, the
same whatever the fuel, with fewer edges, that keeps every edge implied by a path
and has no redundant edge at the nodes it went through. -/
theorem reduceLoop_acyclic {g : Graph} (hac : GAcyclic g) (nodes : List String) :
    ∃ g', (∃ F, ∀ fuel, F ≤ fuel → reduceLoop fuel nodes g = some g') ∧
      SubGraph g' g ∧ KeepsReach g' g ∧ ∀ n0 ∈ nodes, NoRedundant g' n0 := by
  obtain ⟨F, hF⟩ := dfs_total hac
  obtain ⟨g', hr, hs, hk, hn⟩ :=
    reduceLoop_spec hac (hF F (Nat.le_refl F)) nodes g (SubGraph.sub_refl g)
  exact ⟨g', ⟨F, fun fuel hle => reduceLoop_mono hle nodes g g' hr⟩, hs, hk, hn⟩

/-- The loop over the successors of `n0` changes nothing where there is no redundant
edge. -/
theorem reduceNode_fixed {g : Graph} {fuel : Nat}
    (hF : ∀ n, ∃ r, dfs fuel g n = some r) {n0 : String} (hn : NoRedundant g n0)
    (todo : List String) : reduceNode fuel n0 g todo = some g := by
  induction todo with
  | nil => rfl
  | cons n1 todo ih =>
    by_cases hc : (succs g n0).contains n1 = true
    · have h1 : n1 ∈ succs g n0 := by simpa using hc
      obtain ⟨ds, hds⟩ := hF n1
      have he : eraseFound g n0 ds = g :=
        eraseFound_eq_self g n0 ds (fun d hd h3 => hn n1 h1 d h3 ((dfs_mem hds d).1 hd))
      simp only [reduceNode, hc, if_true, hds, he]
      exact ih
    · simp only [reduceNode, hc]
      exact ih

theorem reduceLoop_fixed {g : Graph} {fuel : Nat}
    (hF : ∀ n, ∃ r, dfs fuel g n = some r) (nodes : List String)
    (hn : ∀ n0 ∈ nodes, NoRedundant g n0) : reduceLoop fuel nodes g = some g := by
  induction nodes with
  | nil => rfl
  | cons n0 nodes ih =>
    rw [reduceLoop_cons, reduceNode_fixed hF (hn n0 (List.mem_cons_self n0 nodes))]
    exact ih (fun a ha => hn a (List.mem_cons_of_mem n0 ha))

/-! ## The reverse graph as built -/

theorem mem_setInsert {s : List String} {x y : String} :
    x ∈ setInsert s y ↔ x ∈ s ∨ x = y := by
  unfold setInsert
  by_cases h : s.contains y = true
  · have hy : y ∈ s := by simpa using h
    simp only [h, if_true]
    constructor
    · exact Or.inl
    · rintro (hx | rfl)
      · exact hx
      · exact hy
  · have hy : y ∉ s := by simpa using h
    simp [hy]

theorem lookup_eq_none_of_not_key {g : Graph} {k : String} (h : k ∉ keys g) :
    g.lookup k = none := by
  rw [List.lookup_eq_none_iff]
  intro p hp
  have : k ≠ p.1 := fun e => h (e ▸ List.mem_map_of_mem Prod.fst hp)
  simpa using this

theorem lookup_isSome_of_key {g : Graph} {k : String} (h : k ∈ keys g) :
    ∃ v, g.lookup k = some v := by
  have : (g.lookup k).isSome = true := by
    rw [List.lookup_isSome_iff]
    obtain ⟨ds, hds⟩ := mem_keys.1 h
    exact ⟨(k, ds), hds, by simp⟩
  exact Option.isSome_iff_exists.1 this

theorem mem_keys_touch {g : Graph} {k n : String} :
    n ∈ keys (touch g k) ↔ n ∈ keys g ∨ n = k := by
  unfold touch
  by_cases h : hasKey g k = true
  · have hk : k ∈ keys g := (hasKey_iff g k).1 h
    simp only [h, if_true]
    constructor
    · exact Or.inl
    · rintro (hn | rfl)
      · exact hn
      · exact hk
  · simp [h, keys]

theorem succs_touch (g : Graph) (k a : String) : succs (touch g k) a = succs g a := by
  unfold touch
  by_cases h : hasKey g k = true
  · simp [h]
  · have hk : k ∉ keys g := fun hk => h ((hasKey_iff g k).2 hk)
    simp only [h, Bool.false_eq_true, if_false, succs]
    rw [List.lookup_append]
    by_cases ha : a = k
    · subst ha
      simp [lookup_eq_none_of_not_key hk]
    · have : (a == k) = false := by simpa using ha
      cases g.lookup a <;> simp [List.lookup_cons, this]

theorem mem_keys_addSucc {g : Graph} {p c n : String} :
    n ∈ keys (addSucc g p c) ↔ n ∈ keys g ∨ n = p := by
  have : keys (addSucc g p c) = keys (touch g p) := by
    unfold addSucc keys
    rw [List.map_map]
    apply List.map_congr_left
    intro kv _
    simp only [Function.comp]
    split <;> rfl
  rw [this, mem_keys_touch]

theorem succs_addSucc (g : Graph) (p c a : String) :
    succs (addSucc g p c) a = if a = p then setInsert (succs g p) c else succs g a := by
  unfold addSucc
  have h := lookup_map_update (touch g p) p a (fun v => setInsert v c)
  by_cases ha : a = p
  · subst ha
    obtain ⟨v, hv⟩ := lookup_isSome_of_key (mem_keys_touch.2 (Or.inr rfl) : a ∈ keys (touch g a))
    have hs : succs g a = v := by
      rw [← succs_touch g a a]
      simp [succs, hv]
    simp only [succs, h, hv, Option.map_some', if_true, Option.getD_some]
    rw [← hs]
    rfl
  · have e : succs g a = succs (touch g p) a := (succs_touch g p a).symm
    simp only [ha, if_false, e]
    simp only [succs, h]
    cases (touch g p).lookup a <;> simp [ha]

theorem buildEdges_spec (k : String) (parents : List String) (acc : List String × Graph) :
    (∀ a b, b ∈ succs (buildEdges k acc parents).2 a ↔
      b ∈ succs acc.2 a ∨ (b = k ∧ a ∈ parents)) ∧
    (∀ n, n ∈ (buildEdges k acc parents).1 ↔ n ∈ acc.1 ∨ n ∈ parents) ∧
    (∀ n, n ∈ keys (buildEdges k acc parents).2 ↔ n ∈ keys acc.2 ∨ n ∈ parents) := by
  unfold buildEdges
  induction parents generalizing acc with
  | nil => simp
  | cons p ps ih =>
    rw [List.foldl_cons]
    obtain ⟨h1, h2, h3⟩ := ih (setInsert acc.1 p, addSucc acc.2 p k)
    refine ⟨fun a b => ?_, fun n => ?_, fun n => ?_⟩
    · rw [h1, succs_addSucc]
      by_cases ha : a = p
      · subst ha
        simp only [if_true, mem_setInsert, List.mem_cons, true_or, and_true]
        tauto
      · simp only [ha, if_false, List.mem_cons, false_or]
    · rw [h2, mem_setInsert, List.mem_cons]
      tauto
    · rw [h3, mem_keys_addSucc, List.mem_cons]
      tauto

theorem buildEntry_spec (acc : List String × Graph) (kvp : String × List String) :
    (∀ a b, b ∈ succs (buildEntry acc kvp).2 a ↔
      b ∈ succs acc.2 a ∨ (b = kvp.1 ∧ a ∈ kvp.2)) ∧
    (∀ n, n ∈ (buildEntry acc kvp).1 ↔ n ∈ acc.1 ∨ n = kvp.1 ∨ n ∈ kvp.2) ∧
    (∀ n, n ∈ keys (buildEntry acc kvp).2 ↔ n ∈ keys acc.2 ∨ n = kvp.1 ∨ n ∈ kvp.2) := by
  obtain ⟨h1, h2, h3⟩ := buildEdges_spec kvp.1 kvp.2 (setInsert acc.1 kvp.1, touch acc.2 kvp.1)
  refine ⟨fun a b => ?_, fun n => ?_, fun n => ?_⟩
  · rw [buildEntry, h1, succs_touch]
  · rw [buildEntry, h2, mem_setInsert, or_assoc]
  · rw [buildEntry, h3, mem_keys_touch, or_assoc]

theorem foldl_buildEntry_spec (m : DepMap) (acc : List String × Graph) :
    (∀ a b, b ∈ succs (m.foldl buildEntry acc).2 a ↔
      b ∈ succs acc.2 a ∨ ∃ ds, (b, ds) ∈ m ∧ a ∈ ds) ∧
    (∀ n, n ∈ (m.foldl buildEntry acc).1 ↔
      n ∈ acc.1 ∨ n ∈ keys m ∨ ∃ kv ∈ m, n ∈ kv.2) ∧
    (∀ n, n ∈ keys (m.foldl buildEntry acc).2 ↔
      n ∈ keys acc.2 ∨ n ∈ keys m ∨ ∃ kv ∈ m, n ∈ kv.2) := by
  induction m generalizing acc with
  | nil => simp [keys]
  | cons kv m ih =>
    rw [List.foldl_cons]
    obtain ⟨h1, h2, h3⟩ := ih (buildEntry acc kv)
    obtain ⟨e1, e2, e3⟩ := buildEntry_spec acc kv
    obtain ⟨k, ds0⟩ := kv
    refine ⟨fun a b => ?_, fun n => ?_, fun n => ?_⟩
    · rw [h1, e1]
      simp only [List.mem_cons, Prod.mk.injEq]
      constructor
      · rintro ((h | ⟨rfl, h⟩) | ⟨ds, hds, h⟩)
        · exact Or.inl h
        · exact Or.inr ⟨ds0, Or.inl ⟨rfl, rfl⟩, h⟩
        · exact Or.inr ⟨ds, Or.inr hds, h⟩
      · rintro (h | ⟨ds, (⟨rfl, rfl⟩ | hds), h⟩)
        · exact Or.inl (Or.inl h)
        · exact Or.inl (Or.inr ⟨rfl, h⟩)
        · exact Or.inr ⟨ds, hds, h⟩
    · rw [h2, e2]
      simp only [keys, List.map_cons, List.mem_cons, exists_eq_or_imp]
      tauto
    · rw [h3, e3]
      simp only [keys, List.map_cons, List.mem_cons, exists_eq_or_imp]
      tauto

/-- The reverse graph as built is the inverse of the dependency map. -/
theorem buildGraph_edge (m : DepMap) (a b : String) :
    GEdge (buildGraph m).2 a b ↔ DepEdge m b a := by
  have h := (foldl_buildEntry_spec m ([], [])).1 a b
  simpa [succs, GEdge, DepEdge, buildGraph] using h

theorem buildGraph_nodes (m : DepMap) (n : String) :
    n ∈ (buildGraph m).1 ↔ n ∈ keys (buildGraph m).2 := by
  rw [buildGraph, (foldl_buildEntry_spec m ([], [])).2.1 n,
    (foldl_buildEntry_spec m ([], [])).2.2 n]
  simp [keys]

/-- Every node that `buildReverseMap` looks up with `graph[...]` after the first loop, a
name of `_nodes` or a successor, is a key of the graph: no lookup inserts. -/
theorem buildGraph_closed (m : DepMap) :
    (∀ n ∈ (buildGraph m).1, n ∈ keys (buildGraph m).2) ∧
    (∀ a b, GEdge (buildGraph m).2 a b → b ∈ keys (buildGraph m).2) ∧
    (∀ n0 n3, keys (eraseSucc (buildGraph m).2 n0 n3) = keys (buildGraph m).2) := by
  refine ⟨fun n hn => (buildGraph_nodes m n).1 hn, fun a b e => ?_, fun n0 n3 => ?_⟩
  · obtain ⟨ds, hds, _⟩ := (buildGraph_edge m a b).1 e
    rw [buildGraph, (foldl_buildEntry_spec m ([], [])).2.2 b]
    exact Or.inr (Or.inl (mem_keys.2 ⟨ds, hds⟩))
  · unfold eraseSucc keys
    rw [List.map_map]
    apply List.map_congr_left
    intro kv _
    simp only [Function.comp]
    split <;> rfl

/-! ## The reduction of the reverse graph of a map -/

theorem BuiltFrom.self (m : DepMap) : BuiltFrom m (buildGraph m).1 (buildGraph m).2 :=
  ⟨List.Perm.refl _, fun _ => List.Perm.refl _⟩

theorem BuiltFrom.edge {m : DepMap} {nodes : List String} {g : Graph}
    (hb : BuiltFrom m nodes g) (a b : String) : GEdge g a b ↔ DepEdge m b a := by
  rw [← buildGraph_edge]
  exact (hb.2 a).mem_iff

theorem BuiltFrom.built_transGen {m : DepMap} {nodes : List String} {g : Graph}
    (hb : BuiltFrom m nodes g) {a b : String} (h : Relation.TransGen (GEdge g) a b) :
    Relation.TransGen (DepEdge m) b a := by
  induction h with
  | single e => exact Relation.TransGen.single ((hb.edge _ _).1 e)
  | tail _ e ih => exact Relation.TransGen.head ((hb.edge _ _).1 e) ih

theorem BuiltFrom.built_acyclic {m : DepMap} {nodes : List String} {g : Graph}
    (hb : BuiltFrom m nodes g) (hac : ∀ n, ¬ OnCycle m n) : GAcyclic g :=
  fun n hn => hac n (hb.built_transGen hn)

theorem BuiltFrom.mem_nodes {m : DepMap} {nodes : List String} {g : Graph}
    (hb : BuiltFrom m nodes g) {a b : String} (h : GEdge g a b) : a ∈ nodes := by
  have h' : b ∈ succs (buildGraph m).2 a := (hb.2 a).mem_iff.1 h
  obtain ⟨l, hl, _⟩ := succs_entry h'
  exact hb.1.mem_iff.2 ((buildGraph_nodes m a).2 (mem_keys.2 ⟨l, hl⟩))

/-- The reduction of the reverse graph of a map without cycle, in whatever order the
containers iterate. -/
theorem reduce_built {m : DepMap} {nodes : List String} {g : Graph}
    (hac : ∀ n, ¬ OnCycle m n) (hb : BuiltFrom m nodes g) :
    ∃ g', (∃ F, ∀ fuel, F ≤ fuel →
        reduceLoop fuel nodes g = some g' ∧ ∀ nodes', reduceLoop fuel nodes' g' = some g') ∧
      SubGraph g' g ∧ KeepsReach g' g ∧ ∀ n0, NoRedundant g' n0 := by
  have hga : GAcyclic g := hb.built_acyclic hac
  obtain ⟨g', ⟨F, hF⟩, hs, hk, hn⟩ := reduceLoop_acyclic hga nodes
  have hall : ∀ n0, NoRedundant g' n0 := by
    intro n0
    by_cases h0 : n0 ∈ nodes
    · exact hn n0 h0
    · intro n1 h1
      exact absurd (hb.mem_nodes (hs n0 h1)) h0
  obtain ⟨F', hF'⟩ := dfs_total hga
  refine ⟨g', ⟨max F F', fun fuel hle => ⟨hF fuel (by omega), fun nodes' => ?_⟩⟩, hs, hk, hall⟩
  exact reduceLoop_fixed (hF' fuel (by omega) g' hs) nodes' (fun n0 _ => hall n0)

/-- The edges that the reduction keeps: those not implied by a longer path. -/
theorem reduced_edge_iff {g g' : Graph} (hs : SubGraph g' g) (hk : KeepsReach g' g)
    (hn : ∀ n0, NoRedundant g' n0) (a b : String) :
    GEdge g' a b ↔ GEdge g a b ∧ ¬ ∃ c, GEdge g a c ∧ Relation.TransGen (GEdge g) c b := by
  constructor
  · intro e
    refine ⟨hs a e, ?_⟩
    rintro ⟨c, hac, hcb⟩
    obtain ⟨c', hac', hc'c⟩ := Relation.TransGen.head'_iff.1 (hk a c hac)
    exact hn a c' hac' b e (Relation.TransGen.trans_right hc'c (hk.keeps_transGen hcb))
  · rintro ⟨e, hno⟩
    obtain ⟨c', hac', hc'b⟩ := Relation.TransGen.head'_iff.1 (hk a b e)
    rcases Relation.reflTransGen_iff_eq_or_transGen.1 hc'b with rfl | ht
    · exact hac'
    · exact absurd ⟨c', hs a hac', hs.sub_transGen ht⟩ hno

/-- The traversal does not end on a node from which a cycle is reachable. -/
theorem dfs_none_of_cycle {g : Graph} {n c : String}
    (hnc : Relation.ReflTransGen (GEdge g) n c) (hc : Relation.TransGen (GEdge g) c c)
    (fuel : Nat) : dfs fuel g n = none := by
  induction fuel generalizing n with
  | zero => rfl
  | succ fuel ih =>
    have hn : Relation.TransGen (GEdge g) n c := by
      rcases Relation.reflTransGen_iff_eq_or_transGen.1 hnc with rfl | h
      · exact hc
      · exact h
    obtain ⟨n', hnn', hn'c⟩ := Relation.TransGen.head'_iff.1 hn
    cases hd : dfs (fuel + 1) g n with
    | none => rfl
    | some r =>
      rw [dfs_succ] at hd
      obtain ⟨ds, hds⟩ := collect_children hd n' hnn'
      rw [ih hn'c] at hds
      cases hds

/-! ## The chain `A`, `B`, `C` -/

theorem transGen_rank {g : Graph} (rank : String → Nat)
    (h : ∀ a b, GEdge g a b → rank a < rank b) {a b : String}
    (hab : Relation.TransGen (GEdge g) a b) : rank a < rank b := by
  induction hab with
  | single e => exact h _ _ e
  | tail _ e ih => exact Nat.lt_trans ih (h _ _ e)

theorem chain_edge (a b : String) :
    DepEdge chain b a ↔ (a = "A" ∧ b = "B") ∨ (a = "B" ∧ b = "C") := by
  simp only [DepEdge, chain, List.mem_cons, Prod.mk.injEq, List.mem_singleton,
    List.not_mem_nil, or_false]
  constructor
  · rintro ⟨ds, (⟨rfl, rfl⟩ | ⟨rfl, rfl⟩ | ⟨rfl, rfl⟩), h⟩
    · simp at h
    · simp only [List.mem_singleton] at h
      exact Or.inl ⟨h, rfl⟩
    · simp only [List.mem_singleton] at h
      exact Or.inr ⟨h, rfl⟩
  · rintro (⟨rfl, rfl⟩ | ⟨rfl, rfl⟩)
    · exact ⟨["A"], Or.inr (Or.inl ⟨rfl, rfl⟩), List.mem_singleton.2 rfl⟩
    · exact ⟨["B"], Or.inr (Or.inr ⟨rfl, rfl⟩), List.mem_singleton.2 rfl⟩

theorem chainPlus_edge (a b : String) :
    DepEdge chainPlus b a ↔
      (a = "A" ∧ b = "B") ∨ (a = "A" ∧ b = "C") ∨ (a = "B" ∧ b = "C") := by
  simp only [DepEdge, chainPlus, List.mem_cons, Prod.mk.injEq, List.mem_singleton,
    List.not_mem_nil, or_false]
  constructor
  · rintro ⟨ds, (⟨rfl, rfl⟩ | ⟨rfl, rfl⟩ | ⟨rfl, rfl⟩), h⟩
    · simp at h
    · simp only [List.mem_singleton] at h
      exact Or.inl ⟨h, rfl⟩
    · simp only [List.mem_cons, List.mem_singleton, List.not_mem_nil, or_false] at h
      rcases h with rfl | rfl
      · exact Or.inr (Or.inl ⟨rfl, rfl⟩)
      · exact Or.inr (Or.inr ⟨rfl, rfl⟩)
  · rintro (⟨rfl, rfl⟩ | ⟨rfl, rfl⟩ | ⟨rfl, rfl⟩)
    · exact ⟨["A"], Or.inr (Or.inl ⟨rfl, rfl⟩), List.mem_singleton.2 rfl⟩
    · exact ⟨["A", "B"], Or.inr (Or.inr ⟨rfl, rfl⟩), by simp⟩
    · exact ⟨["A", "B"], Or.inr (Or.inr ⟨rfl, rfl⟩), by simp⟩

theorem chain_no_cycle (n : String) : ¬ OnCycle chain n := by
  apply no_cycle_of_rank chain (fun s => ["A", "B", "C"].indexOf s)
  intro a b e
  rcases (chain_edge b a).1 e with ⟨rfl, rfl⟩ | ⟨rfl, rfl⟩ <;> decide

theorem chainPlus_no_cycle (n : String) : ¬ OnCycle chainPlus n := by
  apply no_cycle_of_rank chainPlus (fun s => ["A", "B", "C"].indexOf s)
  intro a b e
  rcases (chainPlus_edge b a).1 e with ⟨rfl, rfl⟩ | ⟨rfl, rfl⟩ | ⟨rfl, rfl⟩ <;> decide

/-- After the reduction, in whatever order the containers iterate, the reverse graph
of the chain and the one of the chain with `C` also depending on `A` both have the
two edges from `A` to `B` and from `B` to `C`, and no other. -/
theorem chain_reduced {m : DepMap} (hm : m = chain ∨ m = chainPlus) {nodes : List String}
    {g : Graph} (hb : BuiltFrom m nodes g) :
    ∃ g', (∃ F, ∀ fuel, F ≤ fuel → reduceLoop fuel nodes g = some g') ∧
      ∀ a b, GEdge g' a b ↔ (a = "A" ∧ b = "B") ∨ (a = "B" ∧ b = "C") := by
  have hac : ∀ n, ¬ OnCycle m n := by
    rcases hm with rfl | rfl
    · exact chain_no_cycle
    · exact chainPlus_no_cycle
  have hedge : ∀ a b, GEdge g a b →
      (a = "A" ∧ b = "B") ∨ (a = "A" ∧ b = "C") ∨ (a = "B" ∧ b = "C") := by
    intro a b e
    rcases hm with rfl | rfl
    · rcases (chain_edge a b).1 ((hb.edge a b).1 e) with h | h
      · exact Or.inl h
      · exact Or.inr (Or.inr h)
    · exact (chainPlus_edge a b).1 ((hb.edge a b).1 e)
  have hAB : GEdge g "A" "B" := by
    rcases hm with rfl | rfl
    · exact (hb.edge _ _).2 ((chain_edge _ _).2 (Or.inl ⟨rfl, rfl⟩))
    · exact (hb.edge _ _).2 ((chainPlus_edge _ _).2 (Or.inl ⟨rfl, rfl⟩))
  have hBC : GEdge g "B" "C" := by
    rcases hm with rfl | rfl
    · exact (hb.edge _ _).2 ((chain_edge _ _).2 (Or.inr ⟨rfl, rfl⟩))
    · exact (hb.edge _ _).2 ((chainPlus_edge _ _).2 (Or.inr (Or.inr ⟨rfl, rfl⟩)))
  have hrank : ∀ a b, GEdge g a b →
      ["A", "B", "C"].indexOf a < ["A", "B", "C"].indexOf b := by
    intro a b e
    rcases hedge a b e with ⟨rfl, rfl⟩ | ⟨rfl, rfl⟩ | ⟨rfl, rfl⟩ <;> decide
  obtain ⟨g', ⟨F, hF⟩, hs, hk, hn⟩ := reduce_built hac hb
  refine ⟨g', ⟨F, fun fuel hle => (hF fuel hle).1⟩, fun a b => ?_⟩
  rw [reduced_edge_iff hs hk hn]
  constructor
  · rintro ⟨e, hno⟩
    rcases hedge a b e with h | ⟨rfl, rfl⟩ | h
    · exact Or.inl h
    · exact absurd ⟨"B", hAB, Relation.TransGen.single hBC⟩ hno
    · exact Or.inr h
  · rintro (⟨rfl, rfl⟩ | ⟨rfl, rfl⟩)
    · refine ⟨hAB, ?_⟩
      rintro ⟨c, hc, hcb⟩
      have h1 := transGen_rank _ hrank hcb
      rcases hedge _ _ hc with ⟨_, rfl⟩ | ⟨_, rfl⟩ | ⟨h, _⟩
      · exact absurd h1 (by decide)
      · exact absurd h1 (by decide)
      · exact absurd h (by decide)
    · refine ⟨hBC, ?_⟩
      rintro ⟨c, hc, hcb⟩
      have h1 := transGen_rank _ hrank hcb
      rcases hedge _ _ hc with ⟨h, _⟩ | ⟨h, _⟩ | ⟨_, rfl⟩
      · exact absurd h (by decide)
      · exact absurd h (by decide)
      · exact absurd h1 (by decide)

/-! ## The specified properties -/

/-- C1: the batches returned by `buildDepBatches` are a topological order. For every
map with unique keys (acyclic or not) the function returns, and for every entity `E`
in the batch of index `i` and every dependency `d` that `E` has in the input map,
`d` is in a batch of index `j < i`. -/
theorem buildDepBatches_topological (m : DepMap) (hu : UniqueKeys m) :
    ∃ r, buildDepBatches m = some r ∧
      ∀ (i : Nat) (b : List String), r.batches[i]? = some b → ∀ E ∈ b,
        ∀ ds, (E, ds) ∈ m → ∀ d ∈ ds,
          ∃ j b', j < i ∧ r.batches[j]? = some b' ∧ d ∈ b' := by
  obtain ⟨rs, f, hR, hL⟩ := buildDepBatches_rounds m
  exact ⟨_, hL, fun i b hb E hE ds hds d hd => hR.deps_earlier hu i b hb E hE ds hds d hd⟩

/-- Witness of C1 on the diamond map. -/
theorem buildDepBatches_topological_witness :
    UniqueKeys diamond ∧
    ∃ r, buildDepBatches diamond = some r ∧
      ∀ (i : Nat) (b : List String), r.batches[i]? = some b → ∀ E ∈ b,
        ∀ ds, (E, ds) ∈ diamond → ∀ d ∈ ds,
          ∃ j b', j < i ∧ r.batches[j]? = some b' ∧ d ∈ b' :=
  ⟨by decide, buildDepBatches_topological diamond (by decide)⟩

/-- C2: for every map with unique keys, `buildDepBatches` returns, and the entities
of the returned batches followed by the keys left in the map are a rearrangement of
the original keys without repetition: no key is lost, none is in two batches or
twice in a batch, none is both in a batch and left in the map. -/
theorem buildDepBatches_partition (m : DepMap) (hu : UniqueKeys m) :
    ∃ r, buildDepBatches m = some r ∧
      (r.batches.flatten ++ keys r.dep_map).Perm (keys m) ∧
      (r.batches.flatten ++ keys r.dep_map).Nodup := by
  obtain ⟨rs, f, hR, hL⟩ := buildDepBatches_rounds m
  exact ⟨_, hL, hR.keys_perm hu, (hR.keys_perm hu).nodup_iff.2 hu⟩

/-- Witness of C2 on a map with a cycle and a missing dependency. -/
theorem buildDepBatches_partition_witness :
    UniqueKeys cycleMissing ∧
    ∃ r, buildDepBatches cycleMissing = some r ∧
      (r.batches.flatten ++ keys r.dep_map).Perm (keys cycleMissing) ∧
      (r.batches.flatten ++ keys r.dep_map).Nodup :=
  ⟨by decide, buildDepBatches_partition cycleMissing (by decide)⟩

/-- C3: `buildDepBatches` terminates on every map, cyclic, self-dependent or with
undeclared names alike. The function returns a result; so does the loop from any
state within any bound above the number of keys, with the same result whatever the
bound; and a loop iteration on a non-empty map either finds no ready key and exits
with the report of the stall, or goes on with a map of strictly fewer keys. -/
theorem buildDepBatches_terminates (m : DepMap) :
    (∃ r, buildDepBatches m = some r) ∧
    (∀ fuel bs, m.length < fuel →
      ∃ r, buildLoop fuel m bs = some r ∧ buildLoop (m.length + 1) m bs = some r) ∧
    (∀ fuel bs, m ≠ [] →
      (readyKeys m = [] ∧
        buildLoop (fuel + 1) m bs = some ⟨bs, m, some (describeDepenedencyErrors m)⟩) ∨
      (readyKeys m ≠ [] ∧
        (keys (eraseReadyDeps (eraseReady m (readyKeys m)) (readyKeys m))).length
          < (keys m).length ∧
        buildLoop (fuel + 1) m bs
          = buildLoop fuel (eraseReadyDeps (eraseReady m (readyKeys m)) (readyKeys m))
              (bs ++ [readyKeys m]))) := by
  refine ⟨?_, ?_, ?_⟩
  · obtain ⟨rs, f, _, hL⟩ := buildDepBatches_rounds m
    exact ⟨_, hL⟩
  · intro fuel bs h
    obtain ⟨rs, f, hR, hL⟩ := buildLoop_rounds fuel m bs h
    obtain ⟨rs', f', hR', hL'⟩ := buildLoop_rounds (m.length + 1) m bs (by omega)
    obtain ⟨rfl, rfl⟩ := hR.unique hR'
    exact ⟨_, hL, hL'⟩
  · intro fuel bs hm
    by_cases hr : readyKeys m = []
    · left
      refine ⟨hr, ?_⟩
      rw [buildLoop_stop fuel m bs hr]
      simp [finalErrors, hm]
    · right
      refine ⟨hr, ?_, buildLoop_step fuel m bs hr⟩
      rw [round_eq_restrict]
      simpa [keys] using length_restrict_lt hr

/-- Witness of C3 on a map with a cycle and a missing dependency. -/
theorem buildDepBatches_terminates_witness :
    (∃ r, buildDepBatches cycleMissing = some r) ∧
    (∃ r, buildLoop 9 cycleMissing [] = some r ∧ buildDepBatches cycleMissing = some r) ∧
    readyKeys cycleMissing ≠ [] ∧
    (keys (eraseReadyDeps (eraseReady cycleMissing (readyKeys cycleMissing))
      (readyKeys cycleMissing))).length < (keys cycleMissing).length := by
  have h := buildDepBatches_terminates cycleMissing
  refine ⟨h.1, h.2.1 9 [] (by decide), ?_⟩
  rcases h.2.2 0 [] (by decide) with h1 | h1
  · exact absurd h1.1 (by decide)
  · exact ⟨h1.1, h1.2.1⟩

/-- C4: for every map with unique keys and every key `E`, `buildDepBatches` places
`E` in a batch exactly when every name reachable from `E` along dependency edges is
a key and none of them lies on a dependency cycle; a key that is in no batch is a
key of the map as the function leaves it. When no name lies on a cycle and every
dependency name is a key, the map is left empty and every key is in a batch. -/
theorem buildDepBatches_scheduled_iff (m : DepMap) (hu : UniqueKeys m) :
    ∃ r, buildDepBatches m = some r ∧
      (∀ E ∈ keys m,
        ((∃ b ∈ r.batches, E ∈ b) ↔ ∀ n, Reach m E n → n ∈ keys m ∧ ¬ OnCycle m n)) ∧
      (∀ E ∈ keys m, (¬ ∃ b ∈ r.batches, E ∈ b) → E ∈ keys r.dep_map) ∧
      ((∀ n, ¬ OnCycle m n) → (∀ kv ∈ m, ∀ d ∈ kv.2, d ∈ keys m) →
        r.dep_map = [] ∧ ∀ E ∈ keys m, ∃ b ∈ r.batches, E ∈ b) := by
  obtain ⟨rs, f, hR, hL⟩ := buildDepBatches_rounds m
  have hrem : ∀ E ∈ keys m, (¬ ∃ b ∈ rs, E ∈ b) → E ∈ keys f := by
    intro E hE hn
    rw [hR.final_eq, keys_restrict]
    refine List.mem_filter.2 ⟨hE, ?_⟩
    simpa [List.mem_flatten] using hn
  refine ⟨_, hL, ?_, hrem, ?_⟩
  · intro E _
    constructor
    · intro hEb n hn
      obtain ⟨b, hb, hnb⟩ := hR.reach_scheduled hu hEb hn
      obtain ⟨i, hi⟩ := List.getElem?_of_mem hb
      exact ⟨hR.batch_subset_keys hb hnb, hR.not_onCycle hu i b hi hnb⟩
    · intro h
      exact List.mem_flatten.1 (hR.scheduled_of_reach h)
  · intro hac hc
    have hall : ∀ E ∈ keys m, ∃ b ∈ rs, E ∈ b := fun E hE =>
      List.mem_flatten.1
        (hR.scheduled_of_reach (fun n hn => ⟨reach_mem_keys hc hE hn, hac n⟩))
    refine ⟨?_, hall⟩
    have hk : keys f = [] := by
      rw [hR.final_eq, keys_restrict, List.filter_eq_nil_iff]
      intro E hE
      simpa [List.mem_flatten] using hall E hE
    simpa [keys] using hk

/-- Witness of C4 on the diamond map, which has no cycle and no undeclared name. -/
theorem buildDepBatches_scheduled_iff_witness :
    UniqueKeys diamond ∧ (∀ n, ¬ OnCycle diamond n) ∧
    (∀ kv ∈ diamond, ∀ d ∈ kv.2, d ∈ keys diamond) ∧
    ∃ r, buildDepBatches diamond = some r ∧ r.dep_map = [] ∧
      ∀ E ∈ keys diamond, ∃ b ∈ r.batches, E ∈ b := by
  have hc : ∀ kv ∈ diamond, ∀ d ∈ kv.2, d ∈ keys diamond := by decide
  obtain ⟨r, hr, _, _, h⟩ := buildDepBatches_scheduled_iff diamond (by decide)
  exact ⟨by decide, diamond_no_cycle, hc, r, hr, h diamond_no_cycle hc⟩

/-- C5: `describeDepenedencyErrors` reports the entries of the map one by one, in
order; in the report of an entity, a name of its dependency set is listed as
unresolved exactly when it is not a key of the map and as circular exactly when it
is one, the two lists share no name, and together they are a rearrangement of the
dependency set. -/
theorem describeDepenedencyErrors_classifies (m : DepMap) :
    List.Forall₂
      (fun kv rep =>
        rep.entity = kv.1 ∧
        (∀ n ∈ kv.2, (n ∈ rep.unresolved ↔ n ∉ keys m) ∧ (n ∈ rep.circular ↔ n ∈ keys m)) ∧
        List.Disjoint rep.unresolved rep.circular ∧
        (rep.unresolved ++ rep.circular).Perm kv.2)
      m (describeDepenedencyErrors m) := by
  rw [describe_eq, List.forall₂_map_right_iff, List.forall₂_same]
  rintro ⟨k, ds⟩ _
  refine ⟨rfl, ?_, ?_, ?_⟩
  · intro n hn
    simp only [List.mem_filter, hn, true_and]
    rw [← hasKey_iff]
    simp
  · intro n h1 h2
    have a := (List.mem_filter.1 h1).2
    have b := (List.mem_filter.1 h2).2
    simp [b] at a
  · have h := List.filter_append_perm (fun d => hasKey m d) ds
    exact List.perm_append_comm.trans h

/-- C6: in a map with unique keys, an entity `E` that lists its own name is in no
batch; `buildDepBatches` ends on a stall with `E` still a key of the map, and the
report of `E` lists `E` as circular and not as unresolved. On `{A: {A}}` there is
no batch, the map is left as it was, and `A` is reported circular for `A`. -/
theorem buildDepBatches_self_dependency (m : DepMap) (hu : UniqueKeys m) (E : String)
    (ds : List String) (hE : (E, ds) ∈ m) (hs : E ∈ ds) :
    (∃ r, buildDepBatches m = some r ∧
      (∀ b ∈ r.batches, E ∉ b) ∧ E ∈ keys r.dep_map ∧
      r.errors = some (describeDepenedencyErrors r.dep_map) ∧
      (∃ rep ∈ describeDepenedencyErrors r.dep_map, rep.entity = E) ∧
      ∀ rep ∈ describeDepenedencyErrors r.dep_map, rep.entity = E →
        E ∈ rep.circular ∧ E ∉ rep.unresolved) ∧
    buildDepBatches [("A", ["A"])]
      = some ⟨[], [("A", ["A"])], some [⟨"A", [], ["A"]⟩]⟩ := by
  refine ⟨?_, by decide⟩
  obtain ⟨rs, f, hR, hL⟩ := buildDepBatches_rounds m
  have hn : ∀ b ∈ rs, E ∉ b := by
    intro b hb hEb
    obtain ⟨i, hi⟩ := List.getElem?_of_mem hb
    exact hR.not_onCycle hu i b hi hEb (Relation.TransGen.single ⟨ds, hE, hs⟩)
  obtain ⟨hf, hfe⟩ := hR.unscheduled hE hn
  have hk : E ∈ keys f := mem_keys.2 ⟨_, hf⟩
  have hS : E ∉ rs.flatten := by
    simpa [List.mem_flatten] using hn
  obtain ⟨hex, hall⟩ := report_of_entry (hR.final_unique hu) hf
  refine ⟨_, hL, hn, hk, hfe, hex, ?_⟩
  intro rep hrep he
  obtain ⟨h1, h2⟩ := hall rep hrep he
  have hh : hasKey f E = true := (hasKey_iff f E).2 hk
  rw [h1, h2]
  refine ⟨List.mem_filter.2 ⟨List.mem_filter.2 ⟨hs, by simpa using hS⟩, hh⟩, fun h => ?_⟩
  have := (List.mem_filter.1 h).2
  simp [hh] at this

/-- Witness of C6 on a map where `E` depends on itself. -/
theorem buildDepBatches_self_dependency_witness :
    UniqueKeys cycleMissing ∧ ("E", ["E"]) ∈ cycleMissing ∧ "E" ∈ ["E"] ∧
    ∃ r, buildDepBatches cycleMissing = some r ∧
      (∀ b ∈ r.batches, "E" ∉ b) ∧ "E" ∈ keys r.dep_map ∧
      r.errors = some (describeDepenedencyErrors r.dep_map) :=
  have h := (buildDepBatches_self_dependency cycleMissing (by decide) "E" ["E"]
    (by decide) (by decide)).1
  ⟨by decide, by decide, by decide,
    h.choose, h.choose_spec.1, h.choose_spec.2.1, h.choose_spec.2.2.1, h.choose_spec.2.2.2.1⟩

/-- C7: on the map `{A: {B}, B: {A}, C: {}}`, in whatever order the map iterates,
`buildDepBatches` returns the one batch `[C]` and leaves `{A: {B}, B: {A}}`; it stalls,
and the report on what is left lists `B` as circular for `A`, `A` as circular for
`B`, and nothing as unresolved. -/
theorem buildDepBatches_cycle_case (m : DepMap)
    (hm : m.Perm [("A", ["B"]), ("B", ["A"]), ("C", [])]) :
    ∃ r, buildDepBatches m = some r ∧ r.batches = [["C"]] ∧
      r.dep_map.Perm [("A", ["B"]), ("B", ["A"])] ∧
      r.errors = some (describeDepenedencyErrors r.dep_map) ∧
      (describeDepenedencyErrors r.dep_map).Perm [⟨"A", [], ["B"]⟩, ⟨"B", [], ["A"]⟩] := by
  have h0 : buildDepBatches [("A", ["B"]), ("B", ["A"]), ("C", [])]
      = some ⟨[["C"]], [("A", ["B"]), ("B", ["A"])],
          some [⟨"A", [], ["B"]⟩, ⟨"B", [], ["A"]⟩]⟩ := by decide
  obtain ⟨r, hr, hF, hf, he⟩ := buildDepBatches_perm hm.symm h0
  simp only [List.forall₂_cons_left_iff, List.forall₂_nil_left_iff, List.singleton_perm]
    at hF
  obtain ⟨b, u, rfl, rfl, hb⟩ := hF
  have hf' : r.dep_map.Perm [("A", ["B"]), ("B", ["A"])] := hf.symm
  have hne : r.dep_map ≠ [] := by
    intro h
    rw [h] at hf'
    simpa using hf'.length_eq
  refine ⟨r, hr, hb, hf', ?_, ?_⟩
  · rw [he]
    simp [finalErrors, hne]
  · have := describe_perm hf'
    exact this.trans (by decide)

/-- Witness of C7 on the order `C`, `B`, `A`. -/
theorem buildDepBatches_cycle_case_witness :
    ∃ r, buildDepBatches [("C", []), ("B", ["A"]), ("A", ["B"])] = some r ∧
      r.batches = [["C"]] ∧
      r.dep_map.Perm [("A", ["B"]), ("B", ["A"])] ∧
      r.errors = some (describeDepenedencyErrors r.dep_map) ∧
      (describeDepenedencyErrors r.dep_map).Perm [⟨"A", [], ["B"]⟩, ⟨"B", [], ["A"]⟩] :=
  buildDepBatches_cycle_case [("C", []), ("B", ["A"]), ("A", ["B"])] (by decide)

/-- C8: in a map with unique keys, an entity `E` that lists a name `X` which is not
a key is in no batch; `buildDepBatches` ends on a stall with `E` still a key of the
map, and the report of `E` lists `X` as unresolved and not as circular. On
`{A: {X}}` there is no batch, the map is left as it was, and `X` is reported
unresolved for `A`. -/
theorem buildDepBatches_missing_dependency (m : DepMap) (hu : UniqueKeys m) (E X : String)
    (ds : List String) (hE : (E, ds) ∈ m) (hX : X ∈ ds) (hXk : X ∉ keys m) :
    (∃ r, buildDepBatches m = some r ∧
      (∀ b ∈ r.batches, E ∉ b) ∧ E ∈ keys r.dep_map ∧
      r.errors = some (describeDepenedencyErrors r.dep_map) ∧
      (∃ rep ∈ describeDepenedencyErrors r.dep_map, rep.entity = E) ∧
      ∀ rep ∈ describeDepenedencyErrors r.dep_map, rep.entity = E →
        X ∈ rep.unresolved ∧ X ∉ rep.circular) ∧
    buildDepBatches [("A", ["X"])]
      = some ⟨[], [("A", ["X"])], some [⟨"A", ["X"], []⟩]⟩ := by
  refine ⟨?_, by decide⟩
  obtain ⟨rs, f, hR, hL⟩ := buildDepBatches_rounds m
  have hS : X ∉ rs.flatten := by
    intro hX'
    obtain ⟨b, hb, hXb⟩ := List.mem_flatten.1 hX'
    exact hXk (hR.batch_subset_keys hb hXb)
  have hn : ∀ b ∈ rs, E ∉ b := by
    intro b hb hEb
    obtain ⟨i, hi⟩ := List.getElem?_of_mem hb
    obtain ⟨j, b', _, hb', hXb⟩ := hR.deps_earlier hu i b hi E hEb ds hE X hX
    exact hS (List.mem_flatten.2 ⟨b', List.getElem?_mem hb', hXb⟩)
  obtain ⟨hf, hfe⟩ := hR.unscheduled hE hn
  have hk : E ∈ keys f := mem_keys.2 ⟨_, hf⟩
  obtain ⟨hex, hall⟩ := report_of_entry (hR.final_unique hu) hf
  refine ⟨_, hL, hn, hk, hfe, hex, ?_⟩
  intro rep hrep he
  obtain ⟨h1, h2⟩ := hall rep hrep he
  have hh : hasKey f X = false := by
    rw [Bool.eq_false_iff, Ne, hasKey_iff]
    exact fun h => hXk (hR.final_keys_subset h)
  rw [h1, h2]
  refine ⟨List.mem_filter.2 ⟨List.mem_filter.2 ⟨hX, by simpa using hS⟩, by simp [hh]⟩,
    fun h => ?_⟩
  have := (List.mem_filter.1 h).2
  simp [hh] at this

/-- Witness of C8 on a map where `D` depends on the undeclared `X`. -/
theorem buildDepBatches_missing_dependency_witness :
    UniqueKeys cycleMissing ∧ ("D", ["C", "X"]) ∈ cycleMissing ∧ "X" ∈ ["C", "X"] ∧
    "X" ∉ keys cycleMissing ∧
    ∃ r, buildDepBatches cycleMissing = some r ∧
      (∀ b ∈ r.batches, "D" ∉ b) ∧ "D" ∈ keys r.dep_map ∧
      r.errors = some (describeDepenedencyErrors r.dep_map) :=
  have h := (buildDepBatches_missing_dependency cycleMissing (by decide) "D" "X" ["C", "X"]
    (by decide) (by decide) (by decide)).1
  ⟨by decide, by decide, by decide, by decide,
    h.choose, h.choose_spec.1, h.choose_spec.2.1, h.choose_spec.2.2.1, h.choose_spec.2.2.2.1⟩

/-- C9, as stated, fails on the empty map: every entity of it has an empty
dependency set, and `buildDepBatches` returns no batch at all instead of one. -/
theorem buildDepBatches_all_ready_counterexample :
    (∀ kv ∈ ([] : DepMap), kv.2 = []) ∧
    buildDepBatches [] = some ⟨[], [], none⟩ ∧
    ¬ ∃ r b, buildDepBatches [] = some r ∧ r.batches = [b] := by
  refine ⟨by simp, by decide, ?_⟩
  rintro ⟨r, b, hr, hb⟩
  have h0 : buildDepBatches [] = some ⟨[], [], none⟩ := by decide
  rw [h0] at hr
  cases hr
  simp at hb

/-- C9, amended: when the map is not empty and every entity has an empty dependency
set, `buildDepBatches` returns exactly one batch, made of all the keys of the map in
iteration order, leaves the map empty and reports no error. -/
theorem buildDepBatches_all_ready (m : DepMap) (hne : m ≠ []) (h : ∀ kv ∈ m, kv.2 = []) :
    buildDepBatches m = some ⟨[keys m], [], none⟩ := by
  have hr : readyKeys m = keys m := by
    rw [readyKeys_eq, keys]
    congr 1
    rw [List.filter_eq_self]
    intro kv hkv
    simp [h kv hkv]
  have hk : readyKeys m ≠ [] := by
    rw [hr]
    simpa [keys] using hne
  have hres : restrict m (keys m) = [] := by
    simp only [restrict, List.map_eq_nil_iff, List.filter_eq_nil_iff]
    intro kv hkv
    simpa [keys] using ⟨kv.2, hkv⟩
  obtain ⟨n, hn⟩ : ∃ n, m.length = n + 1 :=
    Nat.exists_eq_succ_of_ne_zero (by simpa using hne)
  rw [buildDepBatches, buildLoop_step _ m [] hk, round_eq_restrict, hr, hres, hn,
    buildLoop_stop n [] _ (by decide)]
  simp [finalErrors]

/-- Witness of C9 (amended) on three entities without dependencies. -/
theorem buildDepBatches_all_ready_witness :
    [("A", []), ("B", []), ("C", [])] ≠ ([] : DepMap) ∧
    (∀ kv ∈ ([("A", []), ("B", []), ("C", [])] : DepMap), kv.2 = []) ∧
    buildDepBatches [("A", []), ("B", []), ("C", [])] = some ⟨[["A", "B", "C"]], [], none⟩ :=
  ⟨by decide, by decide,
    buildDepBatches_all_ready [("A", []), ("B", []), ("C", [])] (by decide) (by decide)⟩

/-- C10: on the diamond `{A: {}, B: {A}, C: {A}, D: {B, C}}`, in whatever order the map
and the set of `D` iterate, `buildDepBatches` returns exactly three batches, `[A]`,
then `B` and `C` in some order, then `[D]`, leaves the map empty and reports no
error. -/
theorem buildDepBatches_diamond (m : DepMap) (dD : List String) (hD : dD.Perm ["B", "C"])
    (hm : m.Perm [("A", []), ("B", ["A"]), ("C", ["A"]), ("D", dD)]) :
    ∃ r b, buildDepBatches m = some r ∧ r.batches = [["A"], b, ["D"]] ∧
      b.Perm ["B", "C"] ∧ r.dep_map = [] ∧ r.errors = none := by
  have h0 : ∃ r0, buildDepBatches [("A", []), ("B", ["A"]), ("C", ["A"]), ("D", dD)] = some r0
      ∧ r0.batches = [["A"], ["B", "C"], ["D"]] ∧ r0.dep_map = [] := by
    rcases perm_pair hD with rfl | rfl
    · exact ⟨⟨[["A"], ["B", "C"], ["D"]], [], none⟩, by decide, rfl, rfl⟩
    · exact ⟨⟨[["A"], ["B", "C"], ["D"]], [], none⟩, by decide, rfl, rfl⟩
  obtain ⟨r0, hr0, hb0, hf0⟩ := h0
  obtain ⟨r, hr, hF, hf, he⟩ := buildDepBatches_perm hm.symm hr0
  rw [hb0] at hF
  rw [hf0] at hf
  simp only [List.forall₂_cons_left_iff, List.forall₂_nil_left_iff, List.singleton_perm]
    at hF
  obtain ⟨a, u, rfl, ⟨b, u', hb, ⟨c, u'', rfl, rfl, rfl⟩, rfl⟩, hbs⟩ := hF
  have hnil : r.dep_map = [] := List.nil_perm.1 hf
  refine ⟨r, b, hr, hbs, hb.symm, hnil, ?_⟩
  rw [he, hnil]
  rfl

/-- Witness of C10 on the order `D`, `C`, `B`, `A`, with the set of `D` in the order
`C`, `B`. -/
theorem buildDepBatches_diamond_witness :
    ∃ r b, buildDepBatches [("D", ["C", "B"]), ("C", ["A"]), ("B", ["A"]), ("A", [])] = some r ∧
      r.batches = [["A"], b, ["D"]] ∧ b.Perm ["B", "C"] ∧ r.dep_map = [] ∧ r.errors = none :=
  buildDepBatches_diamond [("D", ["C", "B"]), ("C", ["A"]), ("B", ["A"]), ("A", [])]
    ["C", "B"] (by decide) (by decide)

/-- C11: on the empty map `buildDepBatches` returns no batch, leaves the map empty and
reports no error. -/
theorem buildDepBatches_empty :
    buildDepBatches [] = some ⟨[], [], none⟩ := by
  decide

/-- C18: every batch is the whole ready set of its round. For a map with unique keys
and an entity `E` in the batch of index `i`: the batch is the ready set of the map
after `i` rounds; `i = 0` when `E` has no dependency; otherwise `i = j + 1` where
`j` is the largest batch index of a dependency of `E` (one dependency is in batch
`j`, all are in batches of index at most `j`); and no member of the batch is a
dependency of `E`. -/
theorem buildDepBatches_batch_index (m : DepMap) (hu : UniqueKeys m) :
    ∃ r, buildDepBatches m = some r ∧
      ∀ (i : Nat) (b : List String), r.batches[i]? = some b →
        b = readyKeys (restrict m (r.batches.take i).flatten) ∧
        ∀ E ∈ b, ∀ ds, (E, ds) ∈ m →
          (ds = [] → i = 0) ∧
          (ds ≠ [] → ∃ j b', i = j + 1 ∧ r.batches[j]? = some b' ∧ (∃ d ∈ ds, d ∈ b') ∧
            ∀ d ∈ ds, ∃ k bk, k ≤ j ∧ r.batches[k]? = some bk ∧ d ∈ bk) ∧
          (∀ E' ∈ b, E' ∉ ds) := by
  obtain ⟨rs, f, hR, hL⟩ := buildDepBatches_rounds m
  refine ⟨_, hL, fun i b hb => ⟨hR.batch_eq i b hb, fun E hE ds hds => ⟨?_, ?_, ?_⟩⟩⟩
  · rintro rfl
    have h0 : E ∈ readyKeys m := mem_readyKeys.2 hds
    have hb0 : rs[0]? = some (readyKeys m) := by
      cases hR with
      | done _ hr => rw [hr] at h0; simp at h0
      | step _ _ _ _ _ => simp
    exact hR.index_unique hb hb0 hE h0
  · intro hne
    obtain ⟨j, b', hj, hb', hd⟩ := hR.index_succ hu i b hb E hE ds hds hne
    refine ⟨j, b', hj, hb', hd, fun d hdd => ?_⟩
    obtain ⟨k, bk, hk, hbk, hdk⟩ := hR.deps_earlier hu i b hb E hE ds hds d hdd
    exact ⟨k, bk, by omega, hbk, hdk⟩
  · intro E' hE' hmem
    obtain ⟨k, bk, hk, hbk, hdk⟩ := hR.deps_earlier hu i b hb E hE ds hds E' hmem
    have := hR.index_unique hb hbk hE' hdk
    omega

/-- Witness of C18 on the diamond map. -/
theorem buildDepBatches_batch_index_witness :
    UniqueKeys diamond ∧
    ∃ r, buildDepBatches diamond = some r ∧
      ∀ (i : Nat) (b : List String), r.batches[i]? = some b →
        b = readyKeys (restrict diamond (r.batches.take i).flatten) ∧
        ∀ E ∈ b, ∀ ds, (E, ds) ∈ diamond →
          (ds = [] → i = 0) ∧
          (ds ≠ [] → ∃ j b', i = j + 1 ∧ r.batches[j]? = some b' ∧ (∃ d ∈ ds, d ∈ b') ∧
            ∀ d ∈ ds, ∃ k bk, k ≤ j ∧ r.batches[k]? = some bk ∧ d ∈ bk) ∧
          (∀ E' ∈ b, E' ∉ ds) :=
  ⟨by decide, buildDepBatches_batch_index diamond (by decide)⟩

/-- C19: what `buildDepBatches` leaves in the map is the input map without the entries
of the scheduled entities, each remaining dependency set being the original one
without the scheduled names. So no scheduled name is left as a key or in a
dependency set, and every entity left has a non-empty dependency set. -/
theorem buildDepBatches_remainder (m : DepMap) :
    ∃ r, buildDepBatches m = some r ∧
      r.dep_map = (m.filter (fun kv => decide (kv.1 ∉ r.batches.flatten))).map
        (fun kv => (kv.1, kv.2.filter (fun d => decide (d ∉ r.batches.flatten)))) ∧
      (∀ b ∈ r.batches, ∀ E ∈ b, E ∉ keys r.dep_map ∧ ∀ kv ∈ r.dep_map, E ∉ kv.2) ∧
      (∀ kv ∈ r.dep_map, kv.2 ≠ []) := by
  obtain ⟨rs, f, hR, hL⟩ := buildDepBatches_rounds m
  have hf : f = restrict m rs.flatten := hR.final_eq
  refine ⟨_, hL, hf, ?_, ?_⟩
  · intro b hb E hE
    have hS : E ∈ rs.flatten := List.mem_flatten.2 ⟨b, hb, hE⟩
    constructor
    · intro hk
      obtain ⟨ds, hds⟩ := mem_keys.1 hk
      rw [hf] at hds
      exact (mem_restrict.1 hds).1 hS
    · rintro ⟨k, ds⟩ hkv hEd
      rw [hf] at hkv
      obtain ⟨_, ds0, _, rfl⟩ := mem_restrict.1 hkv
      simpa [hS] using (List.mem_filter.1 hEd).2
  · rintro ⟨k, ds⟩ hkv rfl
    have := mem_readyKeys.2 hkv
    rw [hR.final_ready] at this
    simp at this

/-- C20: when `buildDepBatches` stalls, the reports are those of the entities left in
the map, one each and in order; a name reported as unresolved is not a key of the
input map, and every report lists at least one unresolved or circular name. -/
theorem buildDepBatches_stall_report (m : DepMap) :
    ∃ r, buildDepBatches m = some r ∧
      ∀ reps, r.errors = some reps →
        reps.map DepError.entity = keys r.dep_map ∧
        ∀ rep ∈ reps,
          (∀ n ∈ rep.unresolved, n ∉ keys m) ∧
          (rep.unresolved ≠ [] ∨ rep.circular ≠ []) := by
  obtain ⟨rs, f, hR, hL⟩ := buildDepBatches_rounds m
  refine ⟨_, hL, ?_⟩
  intro reps hreps
  have hrep : reps = describeDepenedencyErrors f := by
    simp only [finalErrors] at hreps
    split at hreps
    · cases hreps
    · exact (Option.some.inj hreps).symm
  subst hrep
  constructor
  · simp [describe_eq, keys, Function.comp_def]
  · intro rep hmem
    rw [describe_eq] at hmem
    obtain ⟨⟨k, ds⟩, hkv, rfl⟩ := List.mem_map.1 hmem
    constructor
    · intro n hn hkm
      obtain ⟨hnd, hnk⟩ := List.mem_filter.1 hn
      have hnf : n ∉ keys f := by
        intro h
        simp [(hasKey_iff f n).2 h] at hnk
      have hkv' := hkv
      rw [hR.final_eq] at hkv'
      obtain ⟨_, ds0, _, rfl⟩ := mem_restrict.1 hkv'
      have hnS : n ∉ rs.flatten := by
        simpa only [decide_eq_true_eq] using (List.mem_filter.1 hnd).2
      apply hnf
      rw [hR.final_eq, keys_restrict]
      exact List.mem_filter.2 ⟨hkm, by simpa only [decide_eq_true_eq] using hnS⟩
    · have hne : ds ≠ [] := by
        rintro rfl
        have := mem_readyKeys.2 hkv
        rw [hR.final_ready] at this
        simp at this
      obtain ⟨d, hd⟩ := List.exists_mem_of_ne_nil _ hne
      by_cases hk : hasKey f d = true
      · right
        exact List.ne_nil_of_mem (List.mem_filter.2 ⟨hd, hk⟩)
      · left
        exact List.ne_nil_of_mem (List.mem_filter.2 ⟨hd, by simpa using hk⟩)


/-- C12: the reverse graph that `buildReverseMap` builds before the reduction is the
inverse of the dependency map: `E` is a successor of `d` exactly when `E` is a key
of the map whose dependency set holds `d`; and the keys of the graph, as well as
the set `_nodes`, are the keys of the map together with every name of a dependency
set. -/
theorem buildGraph_inverse (m : DepMap) :
    (∀ d E, E ∈ succs (buildGraph m).2 d ↔ ∃ ds, (E, ds) ∈ m ∧ d ∈ ds) ∧
    (∀ n, n ∈ keys (buildGraph m).2 ↔ n ∈ keys m ∨ ∃ kv ∈ m, n ∈ kv.2) ∧
    (∀ n, n ∈ (buildGraph m).1 ↔ n ∈ keys m ∨ ∃ kv ∈ m, n ∈ kv.2) := by
  obtain ⟨h1, h2, h3⟩ := foldl_buildEntry_spec m ([], [])
  refine ⟨fun d E => ?_, fun n => ?_, fun n => ?_⟩
  · rw [buildGraph, h1]
    simp [succs]
  · rw [buildGraph, h3]
    simp [keys]
  · rw [buildGraph, h2]
    simp

/-- C13: for a dependency map without cycle, in whatever order the containers of
`buildReverseMap` iterate, the reduction returns (with enough fuel for the
traversal, and the same graph whatever the fuel) a graph without redundant edge:
no two successors `n1`, `n3` of a node `n0` with `n3` reachable from `n1` by one or
more edges. With `B` depending on `A` and `C` on both, what is left is the edge
from `A` to `B` and the edge from `B` to `C`. -/
theorem reduction_no_redundant_edge (m : DepMap) (hac : ∀ n, ¬ OnCycle m n)
    (nodes : List String) (g : Graph) (hb : BuiltFrom m nodes g) :
    (∃ g', (∃ F, ∀ fuel, F ≤ fuel → reduceLoop fuel nodes g = some g') ∧
      ∀ n0 n1 n3, n1 ∈ succs g' n0 → n3 ∈ succs g' n0 →
        ¬ Relation.TransGen (GEdge g') n1 n3) ∧
    buildReverseMap 2 chainPlus = some [("A", ["B"]), ("B", ["C"]), ("C", [])] := by
  refine ⟨?_, by decide⟩
  obtain ⟨g', ⟨F, hF⟩, _, _, hn⟩ := reduce_built hac hb
  exact ⟨g', ⟨F, fun fuel hle => (hF fuel hle).1⟩, fun n0 n1 n3 h1 h3 => hn n0 n1 h1 n3 h3⟩

/-- Witness of C13 on the diamond map, with the containers as `buildReverseMap`
builds them. -/
theorem reduction_no_redundant_edge_witness :
    (∀ n, ¬ OnCycle diamond n) ∧
    BuiltFrom diamond (buildGraph diamond).1 (buildGraph diamond).2 ∧
    ∃ g', (∃ F, ∀ fuel, F ≤ fuel → buildReverseMap fuel diamond = some g') ∧
      ∀ n0 n1 n3, n1 ∈ succs g' n0 → n3 ∈ succs g' n0 →
        ¬ Relation.TransGen (GEdge g') n1 n3 :=
  ⟨diamond_no_cycle, BuiltFrom.self diamond,
    (reduction_no_redundant_edge diamond diamond_no_cycle _ _ (BuiltFrom.self diamond)).1⟩

/-- C14, as stated, fails on `{A: {}, B: {A}, C: {A, B}}`: the edge from `A` to `C` is in
the reverse graph before the reduction, and whatever the fuel the reduction does
not return a graph that still has it. -/
theorem reduction_chain_counterexample :
    "C" ∈ succs (buildGraph chainPlus).2 "A" ∧
    buildReverseMap 2 chainPlus = some [("A", ["B"]), ("B", ["C"]), ("C", [])] ∧
    ¬ ∃ fuel g', buildReverseMap fuel chainPlus = some g' ∧ "C" ∈ succs g' "A" := by
  have h2 : buildReverseMap 2 chainPlus = some [("A", ["B"]), ("B", ["C"]), ("C", [])] := by
    decide
  refine ⟨by decide, h2, ?_⟩
  rintro ⟨fuel, g', hg', hC⟩
  by_cases hle : 2 ≤ fuel
  · have := reduceLoop_mono hle _ _ _ h2
    rw [buildReverseMap] at hg'
    rw [this] at hg'
    cases hg'
    revert hC
    decide
  · have hf : fuel = 0 ∨ fuel = 1 := by omega
    rcases hf with rfl | rfl
    · have : buildReverseMap 0 chainPlus = none := by decide
      rw [this] at hg'
      cases hg'
    · have : buildReverseMap 1 chainPlus = none := by decide
      rw [this] at hg'
      cases hg'

/-- C14, amended: in whatever order the containers of `buildReverseMap` iterate, the
reduced reverse graph of the chain `{A: {}, B: {A}, C: {B}}` has the edges from `A` to
`B` and from `B` to `C` and no other, so no edge from `A` to `C`; when `C` also lists `A`
(`{A: {}, B: {A}, C: {A, B}}`) the edge from `A` to `C` is in the graph before the
reduction and the reduction removes it, leaving the same two edges. -/
theorem reduction_chain_cases :
    (∀ nodes g, BuiltFrom chain nodes g →
      ¬ GEdge g "A" "C" ∧
      ∃ g', (∃ F, ∀ fuel, F ≤ fuel → reduceLoop fuel nodes g = some g') ∧
        ∀ a b, GEdge g' a b ↔ (a = "A" ∧ b = "B") ∨ (a = "B" ∧ b = "C")) ∧
    (∀ nodes g, BuiltFrom chainPlus nodes g →
      GEdge g "A" "C" ∧
      ∃ g', (∃ F, ∀ fuel, F ≤ fuel → reduceLoop fuel nodes g = some g') ∧
        ∀ a b, GEdge g' a b ↔ (a = "A" ∧ b = "B") ∨ (a = "B" ∧ b = "C")) ∧
    buildReverseMap 2 chain = some [("A", ["B"]), ("B", ["C"]), ("C", [])] ∧
    buildReverseMap 2 chainPlus = some [("A", ["B"]), ("B", ["C"]), ("C", [])] := by
  refine ⟨fun nodes g hb => ⟨?_, chain_reduced (Or.inl rfl) hb⟩,
    fun nodes g hb => ⟨?_, chain_reduced (Or.inr rfl) hb⟩, by decide, by decide⟩
  · intro e
    rcases (chain_edge _ _).1 ((hb.edge _ _).1 e) with ⟨_, h⟩ | ⟨h, _⟩
    · exact absurd h (by decide)
    · exact absurd h (by decide)
  · exact (hb.edge _ _).2 ((chainPlus_edge _ _).2 (Or.inr (Or.inl ⟨rfl, rfl⟩)))

/-- Witness of C14 (amended), with the containers as `buildReverseMap` builds them. -/
theorem reduction_chain_cases_witness :
    BuiltFrom chain (buildGraph chain).1 (buildGraph chain).2 ∧
    BuiltFrom chainPlus (buildGraph chainPlus).1 (buildGraph chainPlus).2 ∧
    (∃ g', (∃ F, ∀ fuel, F ≤ fuel → buildReverseMap fuel chain = some g') ∧
      ∀ a b, GEdge g' a b ↔ (a = "A" ∧ b = "B") ∨ (a = "B" ∧ b = "C")) ∧
    GEdge (buildGraph chainPlus).2 "A" "C" ∧
    (∃ g', (∃ F, ∀ fuel, F ≤ fuel → buildReverseMap fuel chainPlus = some g') ∧
      ∀ a b, GEdge g' a b ↔ (a = "A" ∧ b = "B") ∨ (a = "B" ∧ b = "C")) :=
  ⟨BuiltFrom.self chain, BuiltFrom.self chainPlus,
    (reduction_chain_cases.1 _ _ (BuiltFrom.self chain)).2,
    (reduction_chain_cases.2.1 _ _ (BuiltFrom.self chainPlus)).1,
    (reduction_chain_cases.2.1 _ _ (BuiltFrom.self chainPlus)).2⟩

/-- C15: the reduction is idempotent. For a dependency map without cycle, in whatever
order the containers of `buildReverseMap` iterate, the reduction returns a graph
(with enough fuel for the traversal), and the reduction run again on that graph,
over the same nodes or in any other order, returns it unchanged. -/
theorem reduction_idempotent (m : DepMap) (hac : ∀ n, ¬ OnCycle m n)
    (nodes : List String) (g : Graph) (hb : BuiltFrom m nodes g) :
    ∃ g' F, ∀ fuel, F ≤ fuel →
      reduceLoop fuel nodes g = some g' ∧
      ∀ nodes', reduceLoop fuel nodes' g' = some g' := by
  obtain ⟨g', ⟨F, hF⟩, _, _, _⟩ := reduce_built hac hb
  exact ⟨g', F, hF⟩

/-- Witness of C15 on the map where `C` depends on `A` and `B`, and `B` on `A`, with the
containers as `buildReverseMap` builds them. -/
theorem reduction_idempotent_witness :
    (∀ n, ¬ OnCycle chainPlus n) ∧
    BuiltFrom chainPlus (buildGraph chainPlus).1 (buildGraph chainPlus).2 ∧
    ∃ g' F, ∀ fuel, F ≤ fuel →
      buildReverseMap fuel chainPlus = some g' ∧
      ∀ nodes', reduceLoop fuel nodes' g' = some g' :=
  ⟨chainPlus_no_cycle, BuiltFrom.self chainPlus,
    reduction_idempotent chainPlus chainPlus_no_cycle _ _ (BuiltFrom.self chainPlus)⟩

/-- C16 does not hold of the code: `dfs` has no guard against a node it is already
visiting. On the reverse graph of `{A: {A}}` the traversal from `A` does not end
within any depth, and neither does `buildReverseMap` on `{A: {A}}` or on
`{A: {B}, B: {A}}`. -/
theorem buildReverseMap_diverges_on_cycle (fuel : Nat) :
    dfs fuel (buildGraph [("A", ["A"])]).2 "A" = none ∧
    buildReverseMap fuel [("A", ["A"])] = none ∧
    buildReverseMap fuel [("A", ["B"]), ("B", ["A"])] = none := by
  have e1 : buildGraph [("A", ["A"])] = (["A"], [("A", ["A"])]) := by decide
  have e2 : buildGraph [("A", ["B"]), ("B", ["A"])]
      = (["A", "B"], [("A", ["B"]), ("B", ["A"])]) := by decide
  have hA : GEdge [("A", ["A"])] "A" "A" := by decide
  have hAB : GEdge [("A", ["B"]), ("B", ["A"])] "A" "B" := by decide
  have hBA : GEdge [("A", ["B"]), ("B", ["A"])] "B" "A" := by decide
  have d1 : dfs fuel [("A", ["A"])] "A" = none :=
    dfs_none_of_cycle Relation.ReflTransGen.refl (Relation.TransGen.single hA) fuel
  have d2 : dfs fuel [("A", ["B"]), ("B", ["A"])] "B" = none :=
    dfs_none_of_cycle Relation.ReflTransGen.refl
      (Relation.TransGen.head hBA (Relation.TransGen.single hAB)) fuel
  refine ⟨?_, ?_, ?_⟩
  · rw [e1]
    exact d1
  · rw [buildReverseMap, e1, reduceLoop_cons]
    have : reduceNode fuel "A" [("A", ["A"])] (succs [("A", ["A"])] "A") = none := by
      have hs : succs [("A", ["A"])] "A" = ["A"] := by decide
      rw [hs]
      simp only [reduceNode, hs, List.contains_cons, beq_self_eq_true, Bool.true_or, if_true, d1]
    rw [this]
    rfl
  · rw [buildReverseMap, e2, reduceLoop_cons]
    have : reduceNode fuel "A" [("A", ["B"]), ("B", ["A"])]
        (succs [("A", ["B"]), ("B", ["A"])] "A") = none := by
      have hs : succs [("A", ["B"]), ("B", ["A"])] "A" = ["B"] := by decide
      rw [hs]
      simp only [reduceNode, hs, List.contains_cons, beq_self_eq_true, Bool.true_or, if_true, d2]
    rw [this]
    rfl

/-- C17: the reduction does not change reachability. For a dependency map without
cycle, in whatever order the containers of `buildReverseMap` iterate, the reduction
returns a graph (with enough fuel for the traversal) in which a node is reachable
from another by one or more edges exactly when it is in the graph before the
reduction; every edge of the reduced graph is an edge of the graph before; and
an edge from `n0` to `n3` that was removed is implied by an edge from `n0` to some
other `n1` followed by a path of one or more edges from `n1` to `n3`. -/
theorem reduction_keeps_reachability (m : DepMap) (hac : ∀ n, ¬ OnCycle m n)
    (nodes : List String) (g : Graph) (hb : BuiltFrom m nodes g) :
    ∃ g', (∃ F, ∀ fuel, F ≤ fuel → reduceLoop fuel nodes g = some g') ∧
      (∀ u v, Relation.TransGen (GEdge g') u v ↔ Relation.TransGen (GEdge g) u v) ∧
      (∀ a b, GEdge g' a b → GEdge g a b) ∧
      (∀ n0 n3, GEdge g n0 n3 → ¬ GEdge g' n0 n3 →
        ∃ n1, n1 ≠ n3 ∧ GEdge g' n0 n1 ∧ Relation.TransGen (GEdge g') n1 n3) := by
  obtain ⟨g', ⟨F, hF⟩, hs, hk, _⟩ := reduce_built hac hb
  refine ⟨g', ⟨F, fun fuel hle => (hF fuel hle).1⟩,
    fun u v => ⟨fun h => hs.sub_transGen h, fun h => hk.keeps_transGen h⟩, fun a b e => hs a e, ?_⟩
  intro n0 n3 e hne
  obtain ⟨n1, h01, h13⟩ := Relation.TransGen.head'_iff.1 (hk n0 n3 e)
  rcases Relation.reflTransGen_iff_eq_or_transGen.1 h13 with rfl | ht
  · exact absurd h01 hne
  · refine ⟨n1, ?_, h01, ht⟩
    rintro rfl
    exact hne h01

/-- Witness of C17 on the map where `C` depends on `A` and `B`, and `B` on `A`, with the
containers as `buildReverseMap` builds them. -/
theorem reduction_keeps_reachability_witness :
    (∀ n, ¬ OnCycle chainPlus n) ∧
    BuiltFrom chainPlus (buildGraph chainPlus).1 (buildGraph chainPlus).2 ∧
    ∃ g', (∃ F, ∀ fuel, F ≤ fuel → buildReverseMap fuel chainPlus = some g') ∧
      (∀ u v, Relation.TransGen (GEdge g') u v ↔
        Relation.TransGen (GEdge (buildGraph chainPlus).2) u v) ∧
      (∀ a b, GEdge g' a b → GEdge (buildGraph chainPlus).2 a b) ∧
      (∀ n0 n3, GEdge (buildGraph chainPlus).2 n0 n3 → ¬ GEdge g' n0 n3 →
        ∃ n1, n1 ≠ n3 ∧ GEdge g' n0 n1 ∧ Relation.TransGen (GEdge g') n1 n3) :=
  ⟨chainPlus_no_cycle, BuiltFrom.self chainPlus,
    reduction_keeps_reachability chainPlus chainPlus_no_cycle _ _ (BuiltFrom.self chainPlus)⟩

/-- Witness of C20 on a map that stalls: there is a report. -/
theorem buildDepBatches_stall_report_witness :
    ∃ r reps, buildDepBatches cycleMissing = some r ∧ r.errors = some reps ∧
      reps.map DepError.entity = keys r.dep_map ∧
      ∀ rep ∈ reps,
        (∀ n ∈ rep.unresolved, n ∉ keys cycleMissing) ∧
        (rep.unresolved ≠ [] ∨ rep.circular ≠ []) := by
  obtain ⟨r, hr, h⟩ := buildDepBatches_stall_report cycleMissing
  have h0 : ((buildDepBatches cycleMissing).bind (fun r0 => r0.errors)).isSome = true := by
    decide
  rw [hr] at h0
  obtain ⟨reps, hreps⟩ := Option.isSome_iff_exists.1 h0
  exact ⟨r, reps, hr, hreps, h reps hreps⟩

end DepsLua
